import Mathlib

namespace ITIN

/-! Shallow embedding of the location-tree core of `src/inventory/models.py`
and of the access-scope functions of `src/inventory/access.py`.  Database
tables are lists of rows; machine-level loops that Python runs unbounded are
given an explicit fuel which is shown never to be exhausted on the states
the system can actually reach. -/

/-- A row of the `Location` table (class `Location`, models.py).  `parent =
none` models a NULL parent foreign key; `groups` holds the ids of the
`OrganizationalGroup` rows attached through the m2m table. -/
structure Location where
  id : Nat
  name : String
  slug : String
  parent : Option Nat
  path_cache : String
  groups : List Nat
deriving DecidableEq

/-- The `Location` table: `Location.objects.all()` as a list of rows. -/
abbrev LocDB := List Location

/-- A primary-key lookup: `Location.objects.filter(pk=i).first()`. -/
def lookupLoc (db : LocDB) (i : Nat) : Option Location :=
  db.find? (fun l => l.id == i)

/-- Characters kept by `slugify` (alphanumerics, underscore, hyphen, space). -/
def slugKeep (c : Char) : Bool :=
  c.isAlphanum || c == '_' || c == '-' || c == ' '

/-- Collapse runs of spaces and hyphens into a single hyphen. -/
def slugCollapse : Bool → List Char → List Char
  | _, [] => []
  | prevDash, c :: cs =>
    if c == ' ' || c == '-' then
      if prevDash then slugCollapse true cs
      else '-' :: slugCollapse true cs
    else c :: slugCollapse false cs

/-- Strip leading and trailing hyphens and underscores. -/
def slugStrip (cs : List Char) : List Char :=
  ((cs.dropWhile (fun c => c == '-' || c == '_')).reverse.dropWhile
    (fun c => c == '-' || c == '_')).reverse

/-- ASCII model of `django.utils.text.slugify`, used by `Location.clean`
to auto-derive a slug from the name. -/
def slugify (s : String) : String :=
  String.mk (slugStrip (slugCollapse false (s.toLower.toList.filter slugKeep)))

/-- The `while current:` loop of `Location.ancestor_chain` (models.py
93–99): walk parent foreign keys, accumulating rows root-first.  The
Python loop is unbounded; `none` models nontermination (fuel exhausted)
or a dangling parent id (`DoesNotExist`). -/
def ancestorChainAux (db : LocDB) : Nat → Option Location → List Location → Option (List Location)
  | _, none, acc => some acc
  | 0, some _, _ => none
  | fuel + 1, some cur, acc =>
    match cur.parent with
    | none => ancestorChainAux db fuel none (cur :: acc)
    | some pid =>
      match lookupLoc db pid with
      | none => none
      | some p => ancestorChainAux db fuel (some p) (cur :: acc)

/-- `Location.ancestor_chain`: the ancestors of `l`, root first, ending
with `l` itself. -/
def ancestorChain (db : LocDB) (l : Location) : Option (List Location) :=
  ancestorChainAux db (db.length + 1) (some l) []

/-- The `Location.path` property: the cached path when nonempty, otherwise
the slash-join of the slugs along the ancestor chain. -/
def locPath (db : LocDB) (l : Location) : Option String :=
  if l.path_cache ≠ "" then some l.path_cache
  else (ancestorChain db l).map (fun ch => String.intercalate "/" (ch.map (fun x => x.slug)))

/-- `Location._compute_path_cache` (models.py 101–110), evaluated against
`db` after the row itself has been written.  `none` models the
`DoesNotExist` exception when the parent row is missing, or a diverging
fallback walk. -/
def computePathCache (db : LocDB) (parent : Option Nat) (slug : String) : Option String :=
  match parent with
  | none => some slug
  | some pid =>
    let parentPath := ((lookupLoc db pid).map (fun p => p.path_cache)).getD ""
    if parentPath ≠ "" then some (parentPath ++ "/" ++ slug)
    else
      match lookupLoc db pid with
      | none => none
      | some p => (locPath db p).map (fun pp => pp ++ "/" ++ slug)

/-- `Location.objects.filter(pk=i).update(path_cache=p)`. -/
def updatePathCacheById (db : LocDB) (i : Nat) (p : String) : LocDB :=
  db.map (fun l => if l.id = i then { l with path_cache := p } else l)

/-- The row write performed by `super().save()`: replace the row with the
same primary key if it exists, otherwise insert the new row. -/
def upsertLoc (db : LocDB) (loc : Location) : LocDB :=
  if db.any (fun l => l.id == loc.id) then
    db.map (fun l => if l.id = loc.id then loc else l)
  else db ++ [loc]

/-- `Location._rebuild_descendant_paths` (models.py 112–119): re-derive
every child's cached path from the parent's freshly written path and
recurse.  The Python recursion is unbounded; `fuel` bounds the depth and
is never exhausted on the acyclic forests the system builds.  `selfPath`
is the in-memory `self.path_cache` of the node whose children are being
rebuilt. -/
def rebuildDescendantPaths : Nat → LocDB → Nat → String → LocDB
  | 0, db, _, _ => db
  | fuel + 1, db, selfId, selfPath =>
    (db.filter (fun l => l.parent == some selfId)).foldl
      (fun acc child =>
        let newPath := if selfPath ≠ "" then selfPath ++ "/" ++ child.slug else child.slug
        let acc' := if child.path_cache ≠ newPath then updatePathCacheById acc child.id newPath
                    else acc
        rebuildDescendantPaths fuel acc' child.id newPath)
      db

/-- `Location.save` (models.py 131–145): write the row, recompute the path
cache, write it back when it changed, and cascade to the descendants when
the path, the parent or the slug changed.  `none` models an uncaught
exception inside `_compute_path_cache`. -/
def saveLoc (db : LocDB) (loc : Location) : Option LocDB :=
  let old := lookupLoc db loc.id
  let oldParent : Option Nat := old.bind (fun l => l.parent)
  let oldSlug : Option String := old.map (fun l => l.slug)
  let db1 := upsertLoc db loc
  match computePathCache db1 loc.parent loc.slug with
  | none => none
  | some newPath =>
    let pathChanged := newPath ≠ loc.path_cache
    let db2 := if pathChanged then updatePathCacheById db1 loc.id newPath else db1
    if pathChanged ∨ oldParent ≠ loc.parent ∨ oldSlug ≠ some loc.slug then
      some (rebuildDescendantPaths db2.length db2 loc.id newPath)
    else
      some db2

/-- Outcome of the cycle-guard walk inside `Location.clean`. -/
inductive WalkOutcome where
  | ok
  | cycle
  | diverge
deriving DecidableEq

/-- The `while current:` cycle guard of `Location.clean` (models.py
87–91): walk the proposed parent chain upward, raising as soon as the
node itself is encountered.  `selfId = none` models an unsaved instance
(`self.id` is `None` during a create), and the `selfId.getD 0 ≠ 0` test
models Python truthiness of `self.id`. -/
def cleanWalk (db : LocDB) (selfId : Option Nat) : Nat → Option Nat → WalkOutcome
  | _, none => WalkOutcome.ok
  | 0, some _ => WalkOutcome.diverge
  | fuel + 1, some curId =>
    if selfId.getD 0 ≠ 0 ∧ selfId = some curId then WalkOutcome.cycle
    else
      match lookupLoc db curId with
      | none => WalkOutcome.diverge
      | some cur => cleanWalk db selfId fuel cur.parent

/-- Result of `Location.clean`: `ok` carries the possibly auto-derived
slug, `err` is a raised `ValidationError`, `diverge` models a
nonterminating walk or a dangling foreign key. -/
inductive CleanResult where
  | ok (slug : String)
  | err
  | diverge
deriving DecidableEq

/-- `Location.clean` (models.py 79–91), for an instance with primary key
`selfId` (`none` while creating), proposed parent `parentId` and the
given `name` and `slug` fields. -/
def cleanLoc (db : LocDB) (selfId : Option Nat) (parentId : Option Nat)
    (name slug : String) : CleanResult :=
  let slug1 := if slug = "" then slugify name else slug
  if slug1 = "" then CleanResult.err
  else if parentId.getD 0 ≠ 0 ∧ parentId = selfId then CleanResult.err
  else
    match cleanWalk db selfId (db.length + 1) parentId with
    | WalkOutcome.ok => CleanResult.ok slug1
    | WalkOutcome.cycle => CleanResult.err
    | WalkOutcome.diverge => CleanResult.diverge

/-- A `create(parent, name, slug?)` call: build an unsaved instance, run
`full_clean` (`clean` plus the `(parent, name)` / `(parent, slug)`
sibling-uniqueness constraints), then `save`.  `newId` is the primary key
the database assigns.  `none` is a rejected or diverging call. -/
def createOp (db : LocDB) (newId : Nat) (parentId : Option Nat)
    (name slug : String) : Option LocDB :=
  match cleanLoc db none parentId name slug with
  | CleanResult.ok slug1 =>
    if db.any (fun l => l.parent == parentId && (l.name == name || l.slug == slug1)) then none
    else saveLoc db { id := newId, name := name, slug := slug1, parent := parentId,
                      path_cache := "", groups := [] }
  | _ => none

/-- A `move_or_rename(location, new_parent, new_name, new_slug)` call on an
existing row: update the in-memory instance, run `full_clean`, then
`save`.  `none` is a rejected or diverging call. -/
def moveOrRenameOp (db : LocDB) (locId : Nat) (newParent : Option Nat)
    (newName newSlug : String) : Option LocDB :=
  match lookupLoc db locId with
  | none => none
  | some old =>
    match cleanLoc db (some locId) newParent newName newSlug with
    | CleanResult.ok slug1 =>
      if db.any (fun l => l.id != locId && l.parent == newParent &&
          (l.name == newName || l.slug == slug1)) then none
      else saveLoc db { old with name := newName, slug := slug1, parent := newParent }
    | _ => none

/-- States of the `Location` table reachable from an empty table by
accepted `create` and `move_or_rename` operations.  The side conditions
on `create` model the database assigning a fresh positive primary key,
and foreign-key integrity requires a proposed parent to be an existing
row. -/
inductive Reach : LocDB → Prop where
  | empty : Reach []
  | create {db db' : LocDB} {newId : Nat} {parentId : Option Nat} {name slug : String} :
      Reach db → newId ≠ 0 → (∀ l ∈ db, l.id ≠ newId) →
      (∀ p, parentId = some p → ∃ l ∈ db, l.id = p) →
      createOp db newId parentId name slug = some db' → Reach db'
  | move {db db' : LocDB} {locId : Nat} {newParent : Option Nat} {newName newSlug : String} :
      Reach db → (∀ p, newParent = some p → ∃ l ∈ db, l.id = p) →
      moveOrRenameOp db locId newParent newName newSlug = some db' → Reach db'

/-- The two facts the core reads from a user, plus its primary key
(`user.id`; only meaningful when authenticated). -/
structure User where
  id : Nat
  is_authenticated : Bool
  is_superuser : Bool
deriving DecidableEq

/-- A row of the `OrganizationalGroup` table with its `members` and
`admins` m2m user-id sets (models.py 38–51). -/
structure OrganizationalGroup where
  id : Nat
  members : List Nat
  admins : List Nat
deriving DecidableEq

/-- A row of the `Asset` table: the fields the access layer reads —
`owner` (nullable user id), the `groups` m2m set, and the nullable
`location` foreign key (models.py 170–217). -/
structure Asset where
  id : Nat
  owner : Option Nat
  groups : List Nat
  location : Option Nat
deriving DecidableEq

/-- The relational store as seen by `access.py`: the `Location`,
`OrganizationalGroup` and `Asset` tables. -/
structure World where
  locations : LocDB
  orgGroups : List OrganizationalGroup
  assets : List Asset
deriving DecidableEq

/-- `_group_ids_for_user` (access.py 6–11): ids of groups in which the
user is a member or an admin. -/
def groupIdsForUser (w : World) (u : User) : Finset Nat :=
  if ¬ u.is_authenticated then ∅
  else ((w.orgGroups.filter (fun g => g.members.contains u.id || g.admins.contains u.id)).map
    (fun g => g.id)).toFinset

/-- The child query inside `_expand_descendant_location_ids`:
`Location.objects.filter(parent_id__in=frontier).values_list("id")`. -/
def childLocIds (locs : LocDB) (frontier : Finset Nat) : Finset Nat :=
  ((locs.filter (fun l => match l.parent with
      | some p => p ∈ frontier
      | none => false)).map (fun l => l.id)).toFinset

/-- The `while frontier:` loop of `_expand_descendant_location_ids`
(access.py 14–24).  The fuel bounds the number of iterations; it is never
exhausted because each iteration adds at least one previously unseen
location id. -/
def expandDescAux (locs : LocDB) : Nat → Finset Nat → Finset Nat → Finset Nat
  | 0, allIds, _ => allIds
  | fuel + 1, allIds, frontier =>
    if frontier = ∅ then allIds
    else
      let newIds := childLocIds locs frontier \ allIds
      if newIds = ∅ then allIds
      else expandDescAux locs fuel (allIds ∪ newIds) newIds

/-- `_expand_descendant_location_ids(seed_ids)` (access.py 14–24):
level-by-level downward closure of a seed id set. -/
def expandDescendantLocationIds (locs : LocDB) (seedIds : Finset Nat) : Finset Nat :=
  expandDescAux locs (locs.length + 1) seedIds seedIds

/-- The parent query inside `_expand_ancestor_location_ids`:
`Location.objects.filter(id__in=s).exclude(parent_id__isnull=True)
.values_list("parent_id")`. -/
def parentIdsOf (locs : LocDB) (s : Finset Nat) : Finset Nat :=
  ((locs.filter (fun l => l.id ∈ s && l.parent.isSome)).filterMap
    (fun l => l.parent)).toFinset

/-- The `while frontier:` loop of `_expand_ancestor_location_ids`
(access.py 27–44). -/
def expandAncAux (locs : LocDB) : Nat → Finset Nat → Finset Nat → Finset Nat
  | 0, allIds, _ => allIds
  | fuel + 1, allIds, frontier =>
    if frontier = ∅ then allIds
    else
      let newIds := frontier \ allIds
      if newIds = ∅ then allIds
      else expandAncAux locs fuel (allIds ∪ newIds) (parentIdsOf locs newIds)

/-- `_expand_ancestor_location_ids(seed_ids)` (access.py 27–44): upward
closure of the strict ancestors of a seed id set. -/
def expandAncestorLocationIds (locs : LocDB) (seedIds : Finset Nat) : Finset Nat :=
  expandAncAux locs (locs.length + 1) ∅ (parentIdsOf locs seedIds)

/-- All location ids: `Location.objects.values_list("id", flat=True)`. -/
def allLocIds (locs : LocDB) : Finset Nat :=
  (locs.map (fun l => l.id)).toFinset

/-- `assignable_location_ids_for_user` (access.py 47–59). -/
def assignableLocationIdsForUser (w : World) (u : User) : Finset Nat :=
  if ¬ u.is_authenticated then ∅
  else if u.is_superuser then allLocIds w.locations
  else
    let groupIds := groupIdsForUser w u
    if groupIds = ∅ then ∅
    else
      let directIds := ((w.locations.filter
        (fun l => l.groups.any (fun g => g ∈ groupIds))).map (fun l => l.id)).toFinset
      if directIds = ∅ then ∅
      else expandDescendantLocationIds w.locations directIds

/-- `visible_location_ids_for_user` (access.py 62–72). -/
def visibleLocationIdsForUser (w : World) (u : User) : Finset Nat :=
  if ¬ u.is_authenticated then ∅
  else if u.is_superuser then allLocIds w.locations
  else
    let assignableIds := assignableLocationIdsForUser w u
    if assignableIds = ∅ then ∅
    else assignableIds ∪ expandAncestorLocationIds w.locations assignableIds

/-- `visible_assets_for_user` (access.py 89–95): the queryset filtered by
`Q(owner=user) | Q(groups__admins=user)` for a regular user. -/
def visibleAssetsForUser (w : World) (u : User) : List Asset :=
  if ¬ u.is_authenticated then []
  else if u.is_superuser then w.assets
  else w.assets.filter (fun a =>
    a.owner == some u.id ||
    w.orgGroups.any (fun g => a.groups.contains g.id && g.admins.contains u.id))

/-- `AssetQuerySet.visible_to` (models.py 155–160): the queryset filtered
by `Q(groups__members=user) | Q(groups__admins=user)` for a regular
user. -/
def assetsVisibleTo (w : World) (u : User) : List Asset :=
  if ¬ u.is_authenticated then []
  else if u.is_superuser then w.assets
  else w.assets.filter (fun a =>
    w.orgGroups.any (fun g => a.groups.contains g.id &&
      (g.members.contains u.id || g.admins.contains u.id)))

/-- `can_view_asset` (access.py 98–103): owner or admin-group access. -/
def canViewAsset (w : World) (u : User) (a : Asset) : Bool :=
  if ¬ u.is_authenticated then false
  else if u.is_superuser then true
  else
    a.owner == some u.id ||
    w.orgGroups.any (fun g => a.groups.contains g.id && g.admins.contains u.id)

/-- `can_edit_asset` (access.py 106–111): admin-group access only. -/
def canEditAsset (w : World) (u : User) (a : Asset) : Bool :=
  if ¬ u.is_authenticated then false
  else if u.is_superuser then true
  else
    w.orgGroups.any (fun g => a.groups.contains g.id && g.admins.contains u.id)

/-- The parent pointer of the row with primary key `i`, as stored. -/
def parentOf (db : LocDB) (i : Nat) : Option Nat :=
  (lookupLoc db i).bind (fun l => l.parent)

/-- One parent edge of the stored forest: row `c` points at parent `p`. -/
def ParentEdge (db : LocDB) (c p : Nat) : Prop := parentOf db c = some p

/-- `d` is a strict descendant of `a`: following parent pointers upward
from `d` reaches `a` in at least one step. -/
def IsStrictDescendant (db : LocDB) (d a : Nat) : Prop :=
  Relation.TransGen (ParentEdge db) d a

/-- The stored parent relation contains no cycle. -/
def AcyclicDB (db : LocDB) : Prop := ∀ i, ¬ IsStrictDescendant db i i

/-- C5: Anonymous exclusion — for every unauthenticated user,
`assignable_location_ids_for_user`, `visible_location_ids_for_user` and
`visible_assets_for_user` return empty collections, and `can_view_asset`
and `can_edit_asset` return false for every asset.  All five are total
functions of the embedding, so none of them raises. -/
theorem anonymous_exclusion (w : World) (u : User) (h : u.is_authenticated = false) :
    assignableLocationIdsForUser w u = ∅ ∧
    visibleLocationIdsForUser w u = ∅ ∧
    visibleAssetsForUser w u = [] ∧
    ∀ a : Asset, canViewAsset w u a = false ∧ canEditAsset w u a = false := by
  simp [assignableLocationIdsForUser, visibleLocationIdsForUser, visibleAssetsForUser,
    canViewAsset, canEditAsset, h]

/-- Concrete instantiation of `anonymous_exclusion` at an anonymous user
over a one-asset world. -/
theorem anonymous_exclusion_witness :
    (User.mk 7 false false).is_authenticated = false ∧
    (assignableLocationIdsForUser (World.mk [] [] [Asset.mk 1 (some 7) [] none])
        (User.mk 7 false false) = ∅ ∧
      visibleLocationIdsForUser (World.mk [] [] [Asset.mk 1 (some 7) [] none])
        (User.mk 7 false false) = ∅ ∧
      visibleAssetsForUser (World.mk [] [] [Asset.mk 1 (some 7) [] none])
        (User.mk 7 false false) = [] ∧
      ∀ a : Asset, canViewAsset (World.mk [] [] [Asset.mk 1 (some 7) [] none])
          (User.mk 7 false false) a = false ∧
        canEditAsset (World.mk [] [] [Asset.mk 1 (some 7) [] none])
          (User.mk 7 false false) a = false) :=
  ⟨rfl, anonymous_exclusion (World.mk [] [] [Asset.mk 1 (some 7) [] none])
    (User.mk 7 false false) rfl⟩

/-- C6: Edit implies view — whenever `can_edit_asset` returns true for a
user and an asset, `can_view_asset` returns true for them as well. -/
theorem edit_implies_view (w : World) (u : User) (a : Asset)
    (h : canEditAsset w u a = true) : canViewAsset w u a = true := by
  unfold canEditAsset at h
  unfold canViewAsset
  by_cases hauth : u.is_authenticated
  · by_cases hsu : u.is_superuser
    · simp [hauth, hsu]
    · simp only [hauth, hsu] at h ⊢
      simp only [not_true, if_false, if_neg, Bool.or_eq_true] at *
      simp_all
  · simp [hauth] at h

/-- Concrete instantiation of `edit_implies_view`: an admin of group 1 can
edit, hence view, an asset tagged with group 1. -/
theorem edit_implies_view_witness :
    canEditAsset (World.mk [] [OrganizationalGroup.mk 1 [] [5]] [Asset.mk 1 none [1] none])
      (User.mk 5 true false) (Asset.mk 1 none [1] none) = true ∧
    canViewAsset (World.mk [] [OrganizationalGroup.mk 1 [] [5]] [Asset.mk 1 none [1] none])
      (User.mk 5 true false) (Asset.mk 1 none [1] none) = true :=
  ⟨by decide,
    edit_implies_view (World.mk [] [OrganizationalGroup.mk 1 [] [5]] [Asset.mk 1 none [1] none])
      (User.mk 5 true false) (Asset.mk 1 none [1] none) (by decide)⟩

/-- C7: Location noninterference — two assets that agree on owner and on
their group set (but may differ in their location field) receive identical
`can_view_asset` and `can_edit_asset` answers, and are together inside or
outside `visible_assets_for_user`. -/
theorem asset_location_noninterference (w : World) (u : User) (a1 a2 : Asset)
    (howner : a1.owner = a2.owner) (hgroups : a1.groups = a2.groups)
    (h1 : a1 ∈ w.assets) (h2 : a2 ∈ w.assets) :
    canViewAsset w u a1 = canViewAsset w u a2 ∧
    canEditAsset w u a1 = canEditAsset w u a2 ∧
    (a1 ∈ visibleAssetsForUser w u ↔ a2 ∈ visibleAssetsForUser w u) := by
  refine ⟨?_, ?_, ?_⟩
  · unfold canViewAsset
    rw [howner, hgroups]
  · unfold canEditAsset
    rw [hgroups]
  · unfold visibleAssetsForUser
    by_cases hauth : u.is_authenticated
    · by_cases hsu : u.is_superuser
      · simp [hauth, hsu, h1, h2]
      · simp [hauth, hsu, List.mem_filter, h1, h2, howner, hgroups]
    · simp [hauth]

/-- Concrete instantiation of `asset_location_noninterference`: two copies
of an owned asset, one located at location 3 and one unlocated, are
treated identically. -/
theorem asset_location_noninterference_witness :
    (Asset.mk 1 (some 5) [] (some 3)).owner = (Asset.mk 2 (some 5) [] none).owner ∧
    (Asset.mk 1 (some 5) [] (some 3)).groups = (Asset.mk 2 (some 5) [] none).groups ∧
    (canViewAsset
        (World.mk [] [] [Asset.mk 1 (some 5) [] (some 3), Asset.mk 2 (some 5) [] none])
        (User.mk 5 true false) (Asset.mk 1 (some 5) [] (some 3)) =
      canViewAsset
        (World.mk [] [] [Asset.mk 1 (some 5) [] (some 3), Asset.mk 2 (some 5) [] none])
        (User.mk 5 true false) (Asset.mk 2 (some 5) [] none) ∧
    canEditAsset
        (World.mk [] [] [Asset.mk 1 (some 5) [] (some 3), Asset.mk 2 (some 5) [] none])
        (User.mk 5 true false) (Asset.mk 1 (some 5) [] (some 3)) =
      canEditAsset
        (World.mk [] [] [Asset.mk 1 (some 5) [] (some 3), Asset.mk 2 (some 5) [] none])
        (User.mk 5 true false) (Asset.mk 2 (some 5) [] none) ∧
    (Asset.mk 1 (some 5) [] (some 3) ∈ visibleAssetsForUser
        (World.mk [] [] [Asset.mk 1 (some 5) [] (some 3), Asset.mk 2 (some 5) [] none])
        (User.mk 5 true false) ↔
      Asset.mk 2 (some 5) [] none ∈ visibleAssetsForUser
        (World.mk [] [] [Asset.mk 1 (some 5) [] (some 3), Asset.mk 2 (some 5) [] none])
        (User.mk 5 true false))) :=
  ⟨rfl, rfl,
    asset_location_noninterference
      (World.mk [] [] [Asset.mk 1 (some 5) [] (some 3), Asset.mk 2 (some 5) [] none])
      (User.mk 5 true false) (Asset.mk 1 (some 5) [] (some 3)) (Asset.mk 2 (some 5) [] none)
      rfl rfl (by decide) (by decide)⟩

/-- C10: For an authenticated non-superuser, membership in the collection
returned by `visible_assets_for_user` coincides with the per-object
predicate `can_view_asset`. -/
theorem bulk_filter_matches_predicate (w : World) (u : User) (a : Asset)
    (hauth : u.is_authenticated = true) (hsu : u.is_superuser = false)
    (ha : a ∈ w.assets) :
    a ∈ visibleAssetsForUser w u ↔ canViewAsset w u a = true := by
  simp [visibleAssetsForUser, canViewAsset, hauth, hsu, List.mem_filter, ha]

/-- Concrete instantiation of `bulk_filter_matches_predicate` for an
authenticated regular user and an owned asset. -/
theorem bulk_filter_matches_predicate_witness :
    (User.mk 5 true false).is_authenticated = true ∧
    (User.mk 5 true false).is_superuser = false ∧
    Asset.mk 1 (some 5) [] none ∈ (World.mk [] [] [Asset.mk 1 (some 5) [] none]).assets ∧
    (Asset.mk 1 (some 5) [] none ∈
        visibleAssetsForUser (World.mk [] [] [Asset.mk 1 (some 5) [] none])
          (User.mk 5 true false) ↔
      canViewAsset (World.mk [] [] [Asset.mk 1 (some 5) [] none])
        (User.mk 5 true false) (Asset.mk 1 (some 5) [] none) = true) :=
  ⟨rfl, rfl, by decide,
    bulk_filter_matches_predicate (World.mk [] [] [Asset.mk 1 (some 5) [] none])
      (User.mk 5 true false) (Asset.mk 1 (some 5) [] none) rfl rfl (by decide)⟩

/-- C4 as stated is false on the code: a user owning a groupless asset
receives it from `visible_assets_for_user` but not from
`Asset.objects.visible_to`, so the two visibility implementations
disagree. -/
theorem visibility_policies_disagree :
    Asset.mk 1 (some 5) [] none ∈
      visibleAssetsForUser (World.mk [] [] [Asset.mk 1 (some 5) [] none])
        (User.mk 5 true false) ∧
    Asset.mk 1 (some 5) [] none ∉
      assetsVisibleTo (World.mk [] [] [Asset.mk 1 (some 5) [] none])
        (User.mk 5 true false) := by
  decide

/-- C4 (amended): the exact policy of each implementation for a regular
authenticated user — `visible_assets_for_user` grants visibility by
direct ownership or admin-group intersection, while
`Asset.objects.visible_to` grants it by member-group or admin-group
intersection; the two therefore diverge on owner-only and member-only
assets. -/
theorem visibility_policies_characterized (w : World) (u : User) (a : Asset)
    (hauth : u.is_authenticated = true) (hsu : u.is_superuser = false)
    (ha : a ∈ w.assets) :
    (a ∈ visibleAssetsForUser w u ↔
      (a.owner = some u.id ∨ ∃ g ∈ w.orgGroups, g.id ∈ a.groups ∧ u.id ∈ g.admins)) ∧
    (a ∈ assetsVisibleTo w u ↔
      (∃ g ∈ w.orgGroups, g.id ∈ a.groups ∧ (u.id ∈ g.members ∨ u.id ∈ g.admins))) := by
  constructor
  · simp [visibleAssetsForUser, hauth, hsu, List.mem_filter, ha, and_assoc]
  · simp [assetsVisibleTo, hauth, hsu, List.mem_filter, ha, and_assoc]

/-- Concrete instantiation of `visibility_policies_characterized` at a
world with one admin group and one member-only asset. -/
theorem visibility_policies_characterized_witness :
    (User.mk 5 true false).is_authenticated = true ∧
    (User.mk 5 true false).is_superuser = false ∧
    Asset.mk 1 none [1] none ∈
      (World.mk [] [OrganizationalGroup.mk 1 [5] []] [Asset.mk 1 none [1] none]).assets ∧
    ((Asset.mk 1 none [1] none ∈
        visibleAssetsForUser
          (World.mk [] [OrganizationalGroup.mk 1 [5] []] [Asset.mk 1 none [1] none])
          (User.mk 5 true false) ↔
        ((Asset.mk 1 none [1] none).owner = some (User.mk 5 true false).id ∨
          ∃ g ∈ (World.mk [] [OrganizationalGroup.mk 1 [5] []]
              [Asset.mk 1 none [1] none]).orgGroups,
            g.id ∈ (Asset.mk 1 none [1] none).groups ∧ (User.mk 5 true false).id ∈ g.admins)) ∧
      (Asset.mk 1 none [1] none ∈
        assetsVisibleTo
          (World.mk [] [OrganizationalGroup.mk 1 [5] []] [Asset.mk 1 none [1] none])
          (User.mk 5 true false) ↔
        (∃ g ∈ (World.mk [] [OrganizationalGroup.mk 1 [5] []]
            [Asset.mk 1 none [1] none]).orgGroups,
          g.id ∈ (Asset.mk 1 none [1] none).groups ∧
            ((User.mk 5 true false).id ∈ g.members ∨
              (User.mk 5 true false).id ∈ g.admins)))) :=
  ⟨rfl, rfl, by decide,
    visibility_policies_characterized
      (World.mk [] [OrganizationalGroup.mk 1 [5] []] [Asset.mk 1 none [1] none])
      (User.mk 5 true false) (Asset.mk 1 none [1] none) rfl rfl (by decide)⟩

/-- C8 as stated is false on the code: expanding descendants from a seed
holding only the nonexistent id 1 returns the seed set itself, which is
not empty. -/
theorem descendant_expansion_keeps_seed :
    expandDescendantLocationIds ([] : LocDB) {1} = {1} ∧
    ({1} : Finset Nat) ≠ (∅ : Finset Nat) := by
  decide

/-- C8 (amended): under foreign-key integrity of the stored parent
pointers, a seed set containing only ids that identify no existing
`Location` is returned unchanged by `_expand_descendant_location_ids` —
the expansion discovers nothing and adds nothing, and (being a total
function) it never raises. -/
theorem descendant_expansion_of_unknown_ids (locs : LocDB) (seed : Finset Nat)
    (hfk : ∀ l ∈ locs, ∀ p, l.parent = some p → p ∈ allLocIds locs)
    (hseed : ∀ i ∈ seed, i ∉ allLocIds locs) :
    expandDescendantLocationIds locs seed = seed := by
  have hchild : childLocIds locs seed = ∅ := by
    ext x
    simp only [childLocIds, List.mem_toFinset, List.mem_map, List.mem_filter,
      Finset.not_mem_empty, iff_false, not_exists]
    rintro l ⟨⟨hl, hp⟩, rfl⟩
    match hpar : l.parent with
    | none => rw [hpar] at hp; exact Bool.noConfusion hp
    | some p =>
      rw [hpar] at hp
      simp only [decide_eq_true_eq] at hp
      exact hseed p hp (hfk l hl p hpar)
  by_cases hs : seed = ∅
  · simp [expandDescendantLocationIds, expandDescAux, hs]
  · simp [expandDescendantLocationIds, expandDescAux, hs, hchild]

/-- Concrete instantiation of `descendant_expansion_of_unknown_ids` on the
empty location table and the seed set containing only id 2. -/
theorem descendant_expansion_of_unknown_ids_witness :
    (∀ l ∈ ([] : LocDB), ∀ p, l.parent = some p → p ∈ allLocIds []) ∧
    (∀ i ∈ ({2} : Finset Nat), i ∉ allLocIds []) ∧
    expandDescendantLocationIds ([] : LocDB) {2} = {2} :=
  ⟨fun l hl => absurd hl (List.not_mem_nil l),
    by decide,
    descendant_expansion_of_unknown_ids [] {2}
      (fun l hl => absurd hl (List.not_mem_nil l)) (by decide)⟩

lemma mem_childLocIds {locs : LocDB} {s : Finset Nat} {x : Nat} :
    x ∈ childLocIds locs s ↔ ∃ l ∈ locs, l.id = x ∧ ∃ p, l.parent = some p ∧ p ∈ s := by
  simp only [childLocIds, List.mem_toFinset, List.mem_map, List.mem_filter]
  constructor
  · rintro ⟨l, ⟨hl, hp⟩, rfl⟩
    refine ⟨l, hl, rfl, ?_⟩
    match hpar : l.parent with
    | none => rw [hpar] at hp; simp at hp
    | some p =>
      rw [hpar] at hp
      simp only [decide_eq_true_eq] at hp
      exact ⟨p, rfl, hp⟩
  · rintro ⟨l, hl, rfl, p, hpar, hp⟩
    refine ⟨l, ⟨hl, ?_⟩, rfl⟩
    rw [hpar]
    simpa using hp

lemma childLocIds_subset_allLocIds (locs : LocDB) (s : Finset Nat) :
    childLocIds locs s ⊆ allLocIds locs := by
  intro x hx
  obtain ⟨l, hl, rfl, -⟩ := mem_childLocIds.mp hx
  simp only [allLocIds, List.mem_toFinset, List.mem_map]
  exact ⟨l, hl, rfl⟩

lemma childLocIds_mono (locs : LocDB) {s t : Finset Nat} (h : s ⊆ t) :
    childLocIds locs s ⊆ childLocIds locs t := by
  intro x hx
  obtain ⟨l, hl, rfl, p, hpar, hp⟩ := mem_childLocIds.mp hx
  exact mem_childLocIds.mpr ⟨l, hl, rfl, p, hpar, h hp⟩

lemma childLocIds_union_subset (locs : LocDB) (s t : Finset Nat) :
    childLocIds locs (s ∪ t) ⊆ childLocIds locs s ∪ childLocIds locs t := by
  intro x hx
  obtain ⟨l, hl, rfl, p, hpar, hp⟩ := mem_childLocIds.mp hx
  rcases Finset.mem_union.mp hp with hp | hp
  · exact Finset.mem_union_left _ (mem_childLocIds.mpr ⟨l, hl, rfl, p, hpar, hp⟩)
  · exact Finset.mem_union_right _ (mem_childLocIds.mpr ⟨l, hl, rfl, p, hpar, hp⟩)

lemma expandDescAux_closed (locs : LocDB) :
    ∀ fuel allIds frontier,
      (allLocIds locs \ allIds).card < fuel →
      frontier ⊆ allIds →
      childLocIds locs (allIds \ frontier) ⊆ allIds →
      childLocIds locs (expandDescAux locs fuel allIds frontier) ⊆
        expandDescAux locs fuel allIds frontier := by
  intro fuel
  induction fuel with
  | zero => exact fun _ _ hcard => absurd hcard (Nat.not_lt_zero _)
  | succ n ih =>
    intro allIds frontier hcard hfa hclosed
    have hsplit : childLocIds locs allIds ⊆
        childLocIds locs (allIds \ frontier) ∪ childLocIds locs frontier := by
      refine Finset.Subset.trans (childLocIds_mono locs ?_)
        (childLocIds_union_subset locs _ _)
      intro x hx
      by_cases hxf : x ∈ frontier
      · exact Finset.mem_union_right _ hxf
      · exact Finset.mem_union_left _ (Finset.mem_sdiff.mpr ⟨hx, hxf⟩)
    simp only [expandDescAux]
    by_cases h1 : frontier = ∅
    · simp only [h1, if_true]
      subst h1
      simpa [Finset.sdiff_empty] using hclosed
    · simp only [h1, if_false]
      by_cases h2 : childLocIds locs frontier \ allIds = ∅
      · simp only [h2, if_true]
        have hcf : childLocIds locs frontier ⊆ allIds :=
          Finset.sdiff_eq_empty_iff_subset.mp h2
        exact Finset.Subset.trans hsplit (Finset.union_subset hclosed hcf)
      · simp only [h2, if_false]
        set newIds := childLocIds locs frontier \ allIds with hnew
        have hnsub : newIds ⊆ allLocIds locs :=
          Finset.Subset.trans (Finset.sdiff_subset) (childLocIds_subset_allLocIds locs _)
        have hcard' : (allLocIds locs \ (allIds ∪ newIds)).card < n := by
          have hss : allLocIds locs \ (allIds ∪ newIds) ⊂ allLocIds locs \ allIds := by
            obtain ⟨x, hx⟩ := Finset.nonempty_iff_ne_empty.mpr h2

            refine Finset.ssubset_iff_of_subset
              (Finset.sdiff_subset_sdiff (Finset.Subset.refl _) Finset.subset_union_left)
              |>.mpr ?_
            refine ⟨x, Finset.mem_sdiff.mpr ⟨hnsub hx, (Finset.mem_sdiff.mp hx).2⟩, ?_⟩
            intro hmem
            exact (Finset.mem_sdiff.mp hmem).2 (Finset.mem_union_right _ hx)
          have := Finset.card_lt_card hss
          omega
        have hfa' : newIds ⊆ allIds ∪ newIds := Finset.subset_union_right
        have hclosed' : childLocIds locs ((allIds ∪ newIds) \ newIds) ⊆ allIds ∪ newIds := by
          have hsub : (allIds ∪ newIds) \ newIds ⊆ allIds := by
            intro x hx
            obtain ⟨hx1, hx2⟩ := Finset.mem_sdiff.mp hx
            rcases Finset.mem_union.mp hx1 with hx1 | hx1
            · exact hx1
            · exact absurd hx1 hx2
          refine Finset.Subset.trans (childLocIds_mono locs hsub) ?_
          refine Finset.Subset.trans hsplit ?_
          refine Finset.union_subset (Finset.Subset.trans hclosed Finset.subset_union_left) ?_
          intro x hx
          by_cases hxa : x ∈ allIds
          · exact Finset.mem_union_left _ hxa
          · exact Finset.mem_union_right _ (Finset.mem_sdiff.mpr ⟨hx, hxa⟩)
        exact ih (allIds ∪ newIds) newIds hcard' hfa' hclosed'

lemma expandDescAux_of_closed (locs : LocDB) (fuel : Nat) (s : Finset Nat)
    (h : childLocIds locs s ⊆ s) : expandDescAux locs (fuel + 1) s s = s := by
  simp only [expandDescAux]
  by_cases h1 : s = ∅
  · simp [h1]
  · have h2 : childLocIds locs s \ s = ∅ := Finset.sdiff_eq_empty_iff_subset.mpr h
    simp [h1, h2]

lemma expandDescendantLocationIds_closed (locs : LocDB) (seed : Finset Nat) :
    childLocIds locs (expandDescendantLocationIds locs seed) ⊆
      expandDescendantLocationIds locs seed := by
  refine expandDescAux_closed locs (locs.length + 1) seed seed ?_ (Finset.Subset.refl _) ?_
  · have h1 : (allLocIds locs \ seed).card ≤ (allLocIds locs).card :=
      Finset.card_le_card (Finset.sdiff_subset)
    have h2 : (allLocIds locs).card ≤ locs.length := by
      calc (allLocIds locs).card ≤ (locs.map (fun l => l.id)).length :=
            List.toFinset_card_le _
        _ = locs.length := List.length_map _ _
    omega
  · rw [Finset.sdiff_self]
    intro x hx
    obtain ⟨l, hl, rfl, p, hpar, hp⟩ := mem_childLocIds.mp hx
    exact absurd hp (Finset.not_mem_empty p)

/-- C9: Descendant-expansion idempotence over an acyclic location forest —
re-expanding the result of `_expand_descendant_location_ids` returns it
unchanged; each frontier step considers only ids not already accumulated
(`new_ids = child_ids - all_ids` is disjoint from `all_ids`); and the loop
stops as soon as an expansion adds nothing new. -/
theorem descendant_expansion_idempotent (locs : LocDB) (seed : Finset Nat)
    (hacyclic : AcyclicDB locs) :
    expandDescendantLocationIds locs (expandDescendantLocationIds locs seed) =
      expandDescendantLocationIds locs seed ∧
    (∀ allIds frontier : Finset Nat,
      Disjoint (childLocIds locs frontier \ allIds) allIds) ∧
    (∀ (fuel : Nat) (allIds frontier : Finset Nat), frontier ≠ ∅ →
      childLocIds locs frontier \ allIds = ∅ →
      expandDescAux locs (fuel + 1) allIds frontier = allIds) := by
  refine ⟨?_, ?_, ?_⟩
  · exact expandDescAux_of_closed locs locs.length _
      (expandDescendantLocationIds_closed locs seed)
  · exact fun allIds frontier => Finset.sdiff_disjoint
  · intro fuel allIds frontier h1 h2
    simp [expandDescAux, h1, h2]

lemma acyclicDB_of_no_parent (locs : LocDB) (h : ∀ l ∈ locs, l.parent = none) :
    AcyclicDB locs := by
  have hnoedge : ∀ c p, ¬ ParentEdge locs c p := by
    intro c p hcp
    unfold ParentEdge parentOf at hcp
    match hfind : lookupLoc locs c with
    | none => rw [hfind] at hcp; exact Option.noConfusion hcp
    | some l =>
      rw [hfind] at hcp
      have hl : l ∈ locs := List.mem_of_find?_eq_some hfind
      simp [h l hl] at hcp
  intro i hi
  cases hi with
  | single he => exact hnoedge _ _ he
  | tail _ he => exact hnoedge _ _ he

/-- Concrete instantiation of `descendant_expansion_idempotent` on a
one-root forest and the seed containing that root. -/
theorem descendant_expansion_idempotent_witness :
    AcyclicDB [Location.mk 1 "a" "a" none "a" []] ∧
    (expandDescendantLocationIds [Location.mk 1 "a" "a" none "a" []]
        (expandDescendantLocationIds [Location.mk 1 "a" "a" none "a" []] {1}) =
      expandDescendantLocationIds [Location.mk 1 "a" "a" none "a" []] {1} ∧
    (∀ allIds frontier : Finset Nat,
      Disjoint (childLocIds [Location.mk 1 "a" "a" none "a" []] frontier \ allIds) allIds) ∧
    (∀ (fuel : Nat) (allIds frontier : Finset Nat), frontier ≠ ∅ →
      childLocIds [Location.mk 1 "a" "a" none "a" []] frontier \ allIds = ∅ →
      expandDescAux [Location.mk 1 "a" "a" none "a" []] (fuel + 1) allIds frontier = allIds)) :=
  ⟨acyclicDB_of_no_parent _ (by decide),
    descendant_expansion_idempotent [Location.mk 1 "a" "a" none "a" []] {1}
      (acyclicDB_of_no_parent _ (by decide))⟩

lemma mem_of_lookupLoc {db : LocDB} {i : Nat} {l : Location}
    (h : lookupLoc db i = some l) : l ∈ db ∧ l.id = i := by
  refine ⟨List.mem_of_find?_eq_some h, ?_⟩
  have := List.find?_some h
  simpa using this

lemma lookupLoc_eq_none_iff {db : LocDB} {i : Nat} :
    lookupLoc db i = none ↔ ∀ l ∈ db, l.id ≠ i := by
  simp [lookupLoc, List.find?_eq_none]

lemma lookupLoc_of_mem {db : LocDB} (hnodup : (db.map (fun l => l.id)).Nodup)
    {l : Location} (hl : l ∈ db) : lookupLoc db l.id = some l := by
  induction db with
  | nil => exact absurd hl (List.not_mem_nil l)
  | cons h t ih =>
    simp only [List.map_cons, List.nodup_cons] at hnodup
    rcases List.mem_cons.mp hl with rfl | hl'
    · exact List.find?_cons_of_pos _ (by simp)
    · have hne : ¬ ((h.id == l.id) = true) := by
        simp only [beq_iff_eq]
        intro he
        exact hnodup.1 (he ▸ List.mem_map_of_mem (fun x => x.id) hl')
      have hstep : List.find? (fun x => x.id == l.id) (h :: t) =
          List.find? (fun x => x.id == l.id) t := List.find?_cons_of_neg t hne
      show List.find? (fun x => x.id == l.id) (h :: t) = some l
      rw [hstep]
      exact ih hnodup.2 hl'

lemma lookupLoc_of_exists {db : LocDB} {i : Nat} (h : ∃ l ∈ db, l.id = i) :
    ∃ l', lookupLoc db i = some l' ∧ l' ∈ db ∧ l'.id = i := by
  cases hfind : lookupLoc db i with
  | some l' => exact ⟨l', rfl, (mem_of_lookupLoc hfind).1, (mem_of_lookupLoc hfind).2⟩
  | none =>
    obtain ⟨l, hl, hid⟩ := h
    exact absurd hid (lookupLoc_eq_none_iff.mp hfind l hl)

lemma lookupLoc_map (db : LocDB) (f : Location → Location)
    (hf : ∀ l, (f l).id = l.id) (j : Nat) :
    lookupLoc (db.map f) j = (lookupLoc db j).map f := by
  induction db with
  | nil => rfl
  | cons h t ih =>
    by_cases hj : (h.id == j) = true
    · have hj' : ((f h).id == j) = true := by rw [hf]; exact hj
      have h1 : List.find? (fun x => x.id == j) (f h :: t.map f) = some (f h) :=
        List.find?_cons_of_pos (t.map f) hj'
      have h2 : List.find? (fun x => x.id == j) (h :: t) = some h :=
        List.find?_cons_of_pos t hj
      show List.find? (fun x => x.id == j) (f h :: t.map f) =
        (List.find? (fun x => x.id == j) (h :: t)).map f
      rw [h1, h2]
      rfl
    · have hj' : ¬ (((f h).id == j) = true) := by rw [hf]; exact hj
      have h1 : List.find? (fun x => x.id == j) (f h :: t.map f) =
          List.find? (fun x => x.id == j) (t.map f) := List.find?_cons_of_neg (t.map f) hj'
      have h2 : List.find? (fun x => x.id == j) (h :: t) =
          List.find? (fun x => x.id == j) t := List.find?_cons_of_neg t hj
      show List.find? (fun x => x.id == j) (f h :: t.map f) =
        (List.find? (fun x => x.id == j) (h :: t)).map f
      rw [h1, h2]
      exact ih

lemma updatePathCacheById_id_preserving (i : Nat) (p : String) (l : Location) :
    (if l.id = i then { l with path_cache := p } else l).id = l.id := by
  by_cases h : l.id = i <;> simp [h]

lemma lookup_updatePathCacheById (db : LocDB) (i : Nat) (p : String) (j : Nat) :
    lookupLoc (updatePathCacheById db i p) j =
      (lookupLoc db j).map (fun l => if l.id = i then { l with path_cache := p } else l) :=
  lookupLoc_map db _ (updatePathCacheById_id_preserving i p) j

lemma lookup_updatePathCacheById_other {db : LocDB} {i : Nat} {p : String} {j : Nat}
    (h : j ≠ i) : lookupLoc (updatePathCacheById db i p) j = lookupLoc db j := by
  rw [lookup_updatePathCacheById]
  cases hfind : lookupLoc db j with
  | none => rfl
  | some l =>
    have hid := (mem_of_lookupLoc hfind).2
    have : l.id ≠ i := by rw [hid]; exact h
    simp [this]

lemma ids_map_preserving (db : LocDB) (f : Location → Location)
    (hf : ∀ l, (f l).id = l.id) :
    (db.map f).map (fun l => l.id) = db.map (fun l => l.id) := by
  rw [List.map_map]
  exact List.map_congr_left (fun l _ => hf l)

lemma ids_updatePathCacheById (db : LocDB) (i : Nat) (p : String) :
    (updatePathCacheById db i p).map (fun l => l.id) = db.map (fun l => l.id) :=
  ids_map_preserving db _ (updatePathCacheById_id_preserving i p)

lemma lookup_append_of_none {db1 : LocDB} (db2 : LocDB) {i : Nat}
    (h : lookupLoc db1 i = none) :
    lookupLoc (db1 ++ db2) i = lookupLoc db2 i := by
  induction db1 with
  | nil => rfl
  | cons hd t ih =>
    have hall := lookupLoc_eq_none_iff.mp h
    have hne : ¬ ((hd.id == i) = true) := by
      simpa using hall hd (List.mem_cons_self hd t)
    have hstep : List.find? (fun x => x.id == i) (hd :: (t ++ db2)) =
        List.find? (fun x => x.id == i) (t ++ db2) := List.find?_cons_of_neg (t ++ db2) hne
    show List.find? (fun x => x.id == i) (hd :: (t ++ db2)) = _
    rw [hstep]
    exact ih (lookupLoc_eq_none_iff.mpr fun l hl => hall l (List.mem_cons_of_mem hd hl))

lemma lookup_append_of_some {db1 : LocDB} (db2 : LocDB) {i : Nat} {l : Location}
    (h : lookupLoc db1 i = some l) :
    lookupLoc (db1 ++ db2) i = some l := by
  induction db1 with
  | nil => exact Option.noConfusion h
  | cons hd t ih =>
    by_cases hhd : (hd.id == i) = true
    · have h1 : List.find? (fun x => x.id == i) (hd :: t) = some hd :=
        List.find?_cons_of_pos t hhd
      have h2 : List.find? (fun x => x.id == i) (hd :: (t ++ db2)) = some hd :=
        List.find?_cons_of_pos (t ++ db2) hhd
      have : some hd = some l := h1 ▸ h
      show List.find? (fun x => x.id == i) (hd :: (t ++ db2)) = some l
      rw [h2, this]
    · have h1 : List.find? (fun x => x.id == i) (hd :: t) =
          List.find? (fun x => x.id == i) t := List.find?_cons_of_neg t hhd
      have h2 : List.find? (fun x => x.id == i) (hd :: (t ++ db2)) =
          List.find? (fun x => x.id == i) (t ++ db2) := List.find?_cons_of_neg (t ++ db2) hhd
      show List.find? (fun x => x.id == i) (hd :: (t ++ db2)) = some l
      rw [h2]
      refine ih ?_
      show List.find? (fun x => x.id == i) t = some l
      rw [← h1]
      exact h

lemma upsertLoc_exists_eq (db : LocDB) (loc : Location)
    (h : ∃ l ∈ db, l.id = loc.id) :
    upsertLoc db loc = db.map (fun l => if l.id = loc.id then loc else l) := by
  unfold upsertLoc
  rw [if_pos]
  simp only [List.any_eq_true, beq_iff_eq]
  exact h

lemma upsertLoc_not_exists_eq (db : LocDB) (loc : Location)
    (h : ¬ ∃ l ∈ db, l.id = loc.id) :
    upsertLoc db loc = db ++ [loc] := by
  unfold upsertLoc
  rw [if_neg]
  simp only [List.any_eq_true, beq_iff_eq]
  exact h

lemma upsert_id_preserving (loc l : Location) :
    (if l.id = loc.id then loc else l).id = l.id := by
  by_cases h : l.id = loc.id <;> simp [h]

lemma lookup_upsert_self (db : LocDB) (loc : Location) :
    lookupLoc (upsertLoc db loc) loc.id = some loc := by
  by_cases h : ∃ l ∈ db, l.id = loc.id
  · rw [upsertLoc_exists_eq db loc h, lookupLoc_map db _ (upsert_id_preserving loc)]
    obtain ⟨l', hfind, hmem, hid⟩ := lookupLoc_of_exists h
    rw [hfind]
    simp [hid]
  · rw [upsertLoc_not_exists_eq db loc h,
      lookup_append_of_none _ (lookupLoc_eq_none_iff.mpr fun l hl hid => h ⟨l, hl, hid⟩)]
    exact List.find?_cons_of_pos _ (by simp)

lemma lookup_upsert_other (db : LocDB) (loc : Location) (j : Nat) (hj : j ≠ loc.id) :
    lookupLoc (upsertLoc db loc) j = lookupLoc db j := by
  by_cases h : ∃ l ∈ db, l.id = loc.id
  · rw [upsertLoc_exists_eq db loc h, lookupLoc_map db _ (upsert_id_preserving loc)]
    cases hfind : lookupLoc db j with
    | none => rfl
    | some l =>
      have hid := (mem_of_lookupLoc hfind).2
      have hne : l.id ≠ loc.id := by rw [hid]; exact hj
      simp [hne]
  · rw [upsertLoc_not_exists_eq db loc h]
    cases hfind : lookupLoc db j with
    | some l => exact lookup_append_of_some _ hfind
    | none =>
      rw [lookup_append_of_none _ hfind]
      have hne : ¬ ((loc.id == j) = true) := by
        simp only [beq_iff_eq]
        intro he
        exact hj he.symm
      have hstep : List.find? (fun x => x.id == j) [loc] =
          List.find? (fun x => x.id == j) [] := List.find?_cons_of_neg [] hne
      show List.find? (fun x => x.id == j) [loc] = none
      rw [hstep]
      rfl

lemma ids_upsert_exists (db : LocDB) (loc : Location) (h : ∃ l ∈ db, l.id = loc.id) :
    (upsertLoc db loc).map (fun l => l.id) = db.map (fun l => l.id) := by
  rw [upsertLoc_exists_eq db loc h]
  exact ids_map_preserving db _ (upsert_id_preserving loc)

lemma ids_upsert_not_exists (db : LocDB) (loc : Location) (h : ¬ ∃ l ∈ db, l.id = loc.id) :
    (upsertLoc db loc).map (fun l => l.id) = db.map (fun l => l.id) ++ [loc.id] := by
  rw [upsertLoc_not_exists_eq db loc h]
  simp

lemma string_length_pos_of_ne {s : String} (h : s ≠ "") : 0 < s.length := by
  cases s with
  | mk data =>
    cases data with
    | nil => exact absurd rfl h
    | cons c cs => simp [String.length]

lemma append_ne_empty_right {t : String} (s : String) (h : t ≠ "") : s ++ t ≠ "" := by
  intro he
  have hlen : s.length + t.length = 0 := by
    have := congrArg String.length he
    rw [String.length_append] at this
    simpa using this
  have ht := string_length_pos_of_ne h
  omega

lemma intercalate_go_append (s a : String) :
    ∀ (as : List String) (acc : String),
      String.intercalate.go acc s (as ++ [a]) = String.intercalate.go acc s as ++ s ++ a := by
  intro as
  induction as with
  | nil => intro acc; rfl
  | cons b bs ih =>
    intro acc
    show String.intercalate.go acc s (b :: (bs ++ [a])) = _
    simp only [String.intercalate.go]
    exact ih (acc ++ s ++ b)

lemma intercalate_slash_append (xs : List String) (a : String) (h : xs ≠ []) :
    String.intercalate "/" (xs ++ [a]) = String.intercalate "/" xs ++ "/" ++ a := by
  match xs with
  | [] => exact absurd rfl h
  | x :: rest =>
    show String.intercalate "/" (x :: (rest ++ [a])) = _
    simp only [String.intercalate]
    exact intercalate_go_append "/" a rest x

lemma intercalate_slash_ne_empty (xs : List String) (a : String) (ha : a ≠ "") :
    String.intercalate "/" (xs ++ [a]) ≠ "" := by
  match xs with
  | [] => simpa [String.intercalate, String.intercalate.go] using ha
  | x :: rest =>
    rw [intercalate_slash_append (x :: rest) a (by simp)]
    exact append_ne_empty_right _ ha

/-- The structural projection of a row: primary key, slug and parent —
everything the forest shape and the specified paths depend on. -/
def locKey (l : Location) : Nat × String × Option Nat := (l.id, l.slug, l.parent)

/-- Two table states with the same rows up to `path_cache` and `name`. -/
def sameStruct (db1 db2 : LocDB) : Prop := db1.map locKey = db2.map locKey

lemma sameStruct_refl (db : LocDB) : sameStruct db db := rfl

lemma sameStruct_trans {db1 db2 db3 : LocDB}
    (h1 : sameStruct db1 db2) (h2 : sameStruct db2 db3) : sameStruct db1 db3 :=
  h1.trans h2

lemma sameStruct_updatePathCacheById (db : LocDB) (i : Nat) (p : String) :
    sameStruct db (updatePathCacheById db i p) := by
  unfold sameStruct updatePathCacheById
  rw [List.map_map]
  refine (List.map_congr_left fun l _ => ?_).symm
  by_cases h : l.id = i <;> simp [locKey, h]

lemma lookup_locKey_of_sameStruct {db1 db2 : LocDB} (h : sameStruct db1 db2) (j : Nat) :
    (lookupLoc db1 j).map locKey = (lookupLoc db2 j).map locKey := by
  unfold sameStruct at h
  induction db1 generalizing db2 with
  | nil =>
    cases db2 with
    | nil => rfl
    | cons h2 t2 => exact absurd h (by simp)
  | cons h1 t1 ih =>
    cases db2 with
    | nil => exact absurd h (by simp)
    | cons h2 t2 =>
      simp only [List.map_cons, List.cons.injEq] at h
      obtain ⟨hk, ht⟩ := h
      have hid : h1.id = h2.id := congrArg Prod.fst hk
      by_cases hj : (h1.id == j) = true
      · have hj2 : (h2.id == j) = true := by rw [← hid]; exact hj
        have e1 : List.find? (fun x => x.id == j) (h1 :: t1) = some h1 :=
          List.find?_cons_of_pos t1 hj
        have e2 : List.find? (fun x => x.id == j) (h2 :: t2) = some h2 :=
          List.find?_cons_of_pos t2 hj2
        show (List.find? (fun x => x.id == j) (h1 :: t1)).map locKey =
          (List.find? (fun x => x.id == j) (h2 :: t2)).map locKey
        rw [e1, e2]
        simpa using hk
      · have hj2 : ¬ ((h2.id == j) = true) := by rw [← hid]; exact hj
        have e1 : List.find? (fun x => x.id == j) (h1 :: t1) =
          List.find? (fun x => x.id == j) t1 := List.find?_cons_of_neg t1 hj
        have e2 : List.find? (fun x => x.id == j) (h2 :: t2) =
          List.find? (fun x => x.id == j) t2 := List.find?_cons_of_neg t2 hj2
        show (List.find? (fun x => x.id == j) (h1 :: t1)).map locKey =
          (List.find? (fun x => x.id == j) (h2 :: t2)).map locKey
        rw [e1, e2]
        exact ih ht

lemma parentOf_of_sameStruct {db1 db2 : LocDB} (h : sameStruct db1 db2) (j : Nat) :
    parentOf db1 j = parentOf db2 j := by
  have hk := lookup_locKey_of_sameStruct h j
  unfold parentOf
  cases h1 : lookupLoc db1 j with
  | none =>
    cases h2 : lookupLoc db2 j with
    | none => rfl
    | some l2 => rw [h1, h2] at hk; exact Option.noConfusion hk
  | some l1 =>
    cases h2 : lookupLoc db2 j with
    | none => rw [h1, h2] at hk; exact Option.noConfusion hk
    | some l2 =>
      rw [h1, h2] at hk
      simp only [Option.map_some', Option.some.injEq] at hk
      have : l1.parent = l2.parent := congrArg (fun k => k.2.2) hk
      simpa using this

lemma parentEdge_iff_of_sameStruct {db1 db2 : LocDB} (h : sameStruct db1 db2)
    (c p : Nat) : ParentEdge db1 c p ↔ ParentEdge db2 c p := by
  unfold ParentEdge
  rw [parentOf_of_sameStruct h]

lemma isStrictDescendant_iff_of_sameStruct {db1 db2 : LocDB} (h : sameStruct db1 db2)
    (d a : Nat) : IsStrictDescendant db1 d a ↔ IsStrictDescendant db2 d a := by
  unfold IsStrictDescendant
  constructor
  · exact Relation.TransGen.mono (fun c p hcp => (parentEdge_iff_of_sameStruct h c p).mp hcp)
  · exact Relation.TransGen.mono (fun c p hcp => (parentEdge_iff_of_sameStruct h c p).mpr hcp)

lemma ids_of_sameStruct {db1 db2 : LocDB} (h : sameStruct db1 db2) :
    db1.map (fun l => l.id) = db2.map (fun l => l.id) := by
  unfold sameStruct at h
  have h1 : (db1.map locKey).map Prod.fst = (db2.map locKey).map Prod.fst := by rw [h]
  rw [List.map_map, List.map_map] at h1
  exact h1

lemma ancestorChainAux_locKey_of_sameStruct {db1 db2 : LocDB} (h : sameStruct db1 db2) :
    ∀ (fuel : Nat) (cur1 cur2 : Option Location) (acc1 acc2 : List Location),
      cur1.map locKey = cur2.map locKey →
      acc1.map locKey = acc2.map locKey →
      (ancestorChainAux db1 fuel cur1 acc1).map (List.map locKey) =
        (ancestorChainAux db2 fuel cur2 acc2).map (List.map locKey) := by
  intro fuel
  induction fuel with
  | zero =>
    intro cur1 cur2 acc1 acc2 hcur hacc
    cases cur1 with
    | none =>
      cases cur2 with
      | none => simpa [ancestorChainAux] using hacc
      | some l2 => exact absurd hcur (by simp)
    | some l1 =>
      cases cur2 with
      | none => exact absurd hcur (by simp)
      | some l2 => simp [ancestorChainAux]
  | succ n ih =>
    intro cur1 cur2 acc1 acc2 hcur hacc
    cases cur1 with
    | none =>
      cases cur2 with
      | none => simpa [ancestorChainAux] using hacc
      | some l2 => exact absurd hcur (by simp)
    | some l1 =>
      cases cur2 with
      | none => exact absurd hcur (by simp)
      | some l2 =>
        simp only [Option.map_some', Option.some.injEq] at hcur
        have hpar : l1.parent = l2.parent := congrArg (fun k => k.2.2) hcur
        have hacc' : (l1 :: acc1).map locKey = (l2 :: acc2).map locKey := by
          simp [hcur, hacc]
        cases hp : l1.parent with
        | none =>
          have hp2 : l2.parent = none := by rw [← hpar]; exact hp
          show (ancestorChainAux db1 (n + 1) (some l1) acc1).map (List.map locKey) = _
          simp only [ancestorChainAux, hp, hp2]
          simpa using hacc'
        | some pid =>
          have hp2 : l2.parent = some pid := by rw [← hpar]; exact hp
          simp only [ancestorChainAux, hp, hp2]
          have hl := lookup_locKey_of_sameStruct h pid
          cases hf1 : lookupLoc db1 pid with
          | none =>
            cases hf2 : lookupLoc db2 pid with
            | none => simp
            | some p2 => rw [hf1, hf2] at hl; exact Option.noConfusion hl
          | some p1 =>
            cases hf2 : lookupLoc db2 pid with
            | none => rw [hf1, hf2] at hl; exact Option.noConfusion hl
            | some p2 =>
              rw [hf1, hf2] at hl
              simp only [Option.map_some', Option.some.injEq] at hl
              exact ih (some p1) (some p2) _ _ (by simp [hl]) hacc'

/-- Structural invariants of a reachable `Location` table: unique positive
primary keys, foreign-key integrity of parent pointers, acyclicity, and
nonempty slugs. -/
structure TreeInv (db : LocDB) : Prop where
  nodup : (db.map (fun l => l.id)).Nodup
  pos : ∀ l ∈ db, l.id ≠ 0
  parentsExist : ∀ l ∈ db, ∀ p, l.parent = some p → ∃ l2 ∈ db, l2.id = p
  acyclic : AcyclicDB db
  slugNe : ∀ l ∈ db, l.slug ≠ ""

lemma ancestorChainAux_none (db : LocDB) (fuel : Nat) (acc : List Location) :
    ancestorChainAux db fuel none acc = some acc := by
  cases fuel <;> rfl

lemma ancestorChainAux_step_none (db : LocDB) (n : Nat) (l : Location) (acc : List Location)
    (hp : l.parent = none) :
    ancestorChainAux db (n + 1) (some l) acc = some (l :: acc) := by
  show ancestorChainAux db (n + 1) (some l) acc = some (l :: acc)
  simp [ancestorChainAux, hp, ancestorChainAux_none]

lemma ancestorChainAux_step_some (db : LocDB) (n : Nat) (l : Location) (acc : List Location)
    {pid : Nat} {p : Location} (hp : l.parent = some pid) (hf : lookupLoc db pid = some p) :
    ancestorChainAux db (n + 1) (some l) acc = ancestorChainAux db n (some p) (l :: acc) := by
  simp [ancestorChainAux, hp, hf]

lemma ancestorChainAux_acc (db : LocDB) :
    ∀ (fuel : Nat) (cur : Option Location) (acc : List Location),
      ancestorChainAux db fuel cur acc =
        (ancestorChainAux db fuel cur []).map (fun ch => ch ++ acc) := by
  intro fuel
  induction fuel with
  | zero =>
    intro cur acc
    cases cur with
    | none => simp [ancestorChainAux_none]
    | some l => rfl
  | succ n ih =>
    intro cur acc
    cases cur with
    | none => simp [ancestorChainAux_none]
    | some l =>
      cases hp : l.parent with
      | none =>
        rw [ancestorChainAux_step_none db n l acc hp, ancestorChainAux_step_none db n l [] hp]
        rfl
      | some pid =>
        cases hf : lookupLoc db pid with
        | none =>
          show ancestorChainAux db (n + 1) (some l) acc = _
          simp [ancestorChainAux, hp, hf]
        | some p =>
          rw [ancestorChainAux_step_some db n l acc hp hf,
            ancestorChainAux_step_some db n l [] hp hf,
            ih (some p) (l :: acc), ih (some p) [l]]
          cases ancestorChainAux db n (some p) [] with
          | none => rfl
          | some ch => simp

lemma ancestorChainAux_fuel_mono (db : LocDB) :
    ∀ (fuel fuel' : Nat) (cur : Option Location) (acc res : List Location),
      fuel ≤ fuel' →
      ancestorChainAux db fuel cur acc = some res →
      ancestorChainAux db fuel' cur acc = some res := by
  intro fuel
  induction fuel with
  | zero =>
    intro fuel' cur acc res _ h
    cases cur with
    | none =>
      rw [ancestorChainAux_none] at h ⊢
      exact h
    | some l => exact Option.noConfusion h
  | succ n ih =>
    intro fuel' cur acc res hle h
    cases cur with
    | none =>
      rw [ancestorChainAux_none] at h ⊢
      exact h
    | some l =>
      obtain ⟨m, rfl⟩ : ∃ m, fuel' = m + 1 := ⟨fuel' - 1, by omega⟩
      cases hp : l.parent with
      | none =>
        rw [ancestorChainAux_step_none db n l acc hp] at h
        rw [ancestorChainAux_step_none db m l acc hp]
        exact h
      | some pid =>
        cases hf : lookupLoc db pid with
        | none =>
          have hnone : ancestorChainAux db (n + 1) (some l) acc = none := by
            simp [ancestorChainAux, hp, hf]
          rw [hnone] at h
          exact Option.noConfusion h
        | some p =>
          rw [ancestorChainAux_step_some db n l acc hp hf] at h
          rw [ancestorChainAux_step_some db m l acc hp hf]
          exact ih m (some p) (l :: acc) res (by omega) h

lemma ancestorChainAux_suffix (db : LocDB) :
    ∀ (fuel : Nat) (l : Location) (acc res : List Location),
      ancestorChainAux db fuel (some l) acc = some res →
      ∃ pre, res = pre ++ l :: acc := by
  intro fuel
  induction fuel with
  | zero => intro l acc res h; exact Option.noConfusion h
  | succ n ih =>
    intro l acc res h
    cases hp : l.parent with
    | none =>
      rw [ancestorChainAux_step_none db n l acc hp] at h
      injection h with h
      exact ⟨[], h.symm⟩
    | some pid =>
      cases hf : lookupLoc db pid with
      | none =>
        have hnone : ancestorChainAux db (n + 1) (some l) acc = none := by
          simp [ancestorChainAux, hp, hf]
        rw [hnone] at h
        exact Option.noConfusion h
      | some p =>
        rw [ancestorChainAux_step_some db n l acc hp hf] at h
        obtain ⟨pre, hpre⟩ := ih p (l :: acc) res h
        exact ⟨pre ++ [p], by simp [hpre]⟩

lemma ancestorChainAux_terminates (db : LocDB) (hinv : TreeInv db) :
    ∀ (fuel : Nat) (cur : Option Location) (acc : List Location),
      (∀ l, cur = some l → l ∈ db) →
      (acc.map (fun l => l.id)).Nodup →
      (∀ a ∈ acc, a ∈ db) →
      (∀ a ∈ acc, ∀ l, cur = some l → Relation.TransGen (ParentEdge db) a.id l.id) →
      ((db.map (fun l => l.id)).toFinset \ (acc.map (fun l => l.id)).toFinset).card < fuel →
      ∃ res, ancestorChainAux db fuel cur acc = some res ∧
        (res.map (fun l => l.id)).Nodup ∧ (∀ a ∈ res, a ∈ db) := by
  intro fuel
  induction fuel with
  | zero => intro cur acc _ _ _ _ hcard; exact absurd hcard (Nat.not_lt_zero _)
  | succ n ih =>
    intro cur acc hcur haccnd haccdb hanc hcard
    cases cur with
    | none => exact ⟨acc, ancestorChainAux_none db (n + 1) acc, haccnd, haccdb⟩
    | some l =>
      have hl : l ∈ db := hcur l rfl
      have hlidnotacc : l.id ∉ acc.map (fun x => x.id) := by
        intro hmem
        obtain ⟨a, ha, haid⟩ := List.mem_map.mp hmem
        have := hanc a ha l rfl
        rw [haid] at this
        exact hinv.acyclic l.id this
      have hlid_in : l.id ∈ (db.map (fun x => x.id)).toFinset :=
        List.mem_toFinset.mpr (List.mem_map_of_mem _ hl)
      have hss : (db.map (fun x => x.id)).toFinset \ ((l :: acc).map (fun x => x.id)).toFinset ⊂
          (db.map (fun x => x.id)).toFinset \ (acc.map (fun x => x.id)).toFinset := by
        have hS' : ((l :: acc).map (fun x => x.id)).toFinset =
            insert l.id (acc.map (fun x => x.id)).toFinset := by simp
        rw [hS']
        refine Finset.ssubset_iff_of_subset
          (Finset.sdiff_subset_sdiff (Finset.Subset.refl _) (Finset.subset_insert _ _)) |>.mpr ?_
        refine ⟨l.id, Finset.mem_sdiff.mpr ⟨hlid_in, by simpa using hlidnotacc⟩, ?_⟩
        intro hmem
        exact (Finset.mem_sdiff.mp hmem).2 (Finset.mem_insert_self _ _)
      have hcardlt := Finset.card_lt_card hss
      have haccnd' : ((l :: acc).map (fun x => x.id)).Nodup := by
        simp only [List.map_cons, List.nodup_cons]
        exact ⟨hlidnotacc, haccnd⟩
      have haccdb' : ∀ a ∈ l :: acc, a ∈ db := by
        intro a ha
        rcases List.mem_cons.mp ha with rfl | ha'
        · exact hl
        · exact haccdb a ha'
      cases hp : l.parent with
      | none =>
        refine ⟨l :: acc, ?_, haccnd', haccdb'⟩
        rw [ancestorChainAux_step_none db n l acc hp]
      | some pid =>
        obtain ⟨l2, hl2mem, hl2id⟩ := hinv.parentsExist l hl pid hp
        obtain ⟨p', hfind, hpmem, hpid⟩ := lookupLoc_of_exists ⟨l2, hl2mem, hl2id⟩
        have hedge : ParentEdge db l.id pid := by
          unfold ParentEdge parentOf
          rw [lookupLoc_of_mem hinv.nodup hl]
          simpa using hp
        have hanc' : ∀ a ∈ l :: acc, ∀ l', some p' = some l' →
            Relation.TransGen (ParentEdge db) a.id l'.id := by
          intro a ha l' he
          injection he with he
          subst he
          rw [hpid]
          rcases List.mem_cons.mp ha with rfl | ha'
          · exact Relation.TransGen.single hedge
          · exact Relation.TransGen.tail (hanc a ha' l rfl) hedge
        obtain ⟨res, hres, hnd, hdb⟩ := ih (some p') (l :: acc)
          (fun x hx => by injection hx with hx; exact hx ▸ hpmem)
          haccnd' haccdb' hanc' (by omega)
        refine ⟨res, ?_, hnd, hdb⟩
        rw [ancestorChainAux_step_some db n l acc hp hfind]
        exact hres

lemma ancestorChain_terminates {db : LocDB} (hinv : TreeInv db) {l : Location}
    (hl : l ∈ db) :
    ∃ ch, ancestorChain db l = some ch ∧ (ch.map (fun x => x.id)).Nodup ∧
      ∀ a ∈ ch, a ∈ db := by
  refine ancestorChainAux_terminates db hinv (db.length + 1) (some l) []
    (fun x hx => by injection hx with hx; exact hx ▸ hl) (by simp) (by simp)
    (by simp) ?_
  have hle : ((db.map (fun x => x.id)).toFinset).card ≤ db.length := by
    calc ((db.map (fun x => x.id)).toFinset).card ≤ (db.map (fun x => x.id)).length :=
        (db.map (fun x => x.id)).toFinset_card_le
      _ = db.length := List.length_map _ _
  simp only [List.map_nil, List.toFinset_nil, Finset.sdiff_empty]
  omega

lemma ancestorChain_root {db : LocDB} {l : Location} (hp : l.parent = none) :
    ancestorChain db l = some [l] := by
  unfold ancestorChain
  rw [ancestorChainAux_step_none db db.length l [] hp]

lemma ancestorChain_cons {db : LocDB} (hinv : TreeInv db) {l p : Location}
    (hl : l ∈ db) {pid : Nat} (hp : l.parent = some pid)
    (hf : lookupLoc db pid = some p) :
    ancestorChain db l = (ancestorChain db p).map (fun ch => ch ++ [l]) := by
  unfold ancestorChain
  rw [ancestorChainAux_step_some db db.length l [] hp hf]
  have hpmem : p ∈ db := (mem_of_lookupLoc hf).1
  have hpid : p.id = pid := (mem_of_lookupLoc hf).2
  have hedge : ParentEdge db l.id pid := by
    unfold ParentEdge parentOf
    rw [lookupLoc_of_mem hinv.nodup hl]
    simpa using hp
  have hlid_in : l.id ∈ (db.map (fun x => x.id)).toFinset :=
    List.mem_toFinset.mpr (List.mem_map_of_mem _ hl)
  obtain ⟨res, hres, -, -⟩ := ancestorChainAux_terminates db hinv db.length (some p) [l]
    (fun x hx => by injection hx with hx; exact hx ▸ hpmem)
    (by simp) (by simpa using hl)
    (by
      intro a ha l' he
      injection he with he
      subst he
      have ha' : a = l := by simpa using ha
      subst ha'
      rw [hpid]
      exact Relation.TransGen.single hedge)
    (by
      have hle : ((db.map (fun x => x.id)).toFinset).card ≤ db.length := by
        calc ((db.map (fun x => x.id)).toFinset).card ≤ (db.map (fun x => x.id)).length :=
            (db.map (fun x => x.id)).toFinset_card_le
          _ = db.length := List.length_map _ _
      have hlt : ((db.map (fun x => x.id)).toFinset \
          (([l] : List Location).map (fun x => x.id)).toFinset).card <
            ((db.map (fun x => x.id)).toFinset).card := by
        refine Finset.card_lt_card ?_
        refine Finset.ssubset_iff_of_subset (Finset.sdiff_subset) |>.mpr ?_
        refine ⟨l.id, hlid_in, ?_⟩
        intro hmem
        exact (Finset.mem_sdiff.mp hmem).2 (by simp)
      omega)
  rw [hres]
  rw [ancestorChainAux_acc db db.length (some p) [l]] at hres
  cases hinner : ancestorChainAux db db.length (some p) [] with
  | none => rw [hinner] at hres; exact Option.noConfusion hres
  | some ch =>
    rw [hinner] at hres
    rw [ancestorChainAux_fuel_mono db db.length (db.length + 1) (some p) [] ch
      (by omega) hinner]
    simpa using hres.symm

/-- The specification path of a row: the slash-join of the slugs along its
ancestor chain, root first. -/
def chainSlugPath (db : LocDB) (l : Location) : Option String :=
  (ancestorChain db l).map (fun ch => String.intercalate "/" (ch.map (fun x => x.slug)))

/-- Path-cache correctness: every row caches exactly its chain path. -/
def PathOk (db : LocDB) : Prop :=
  ∀ l ∈ db, chainSlugPath db l = some l.path_cache

/-- Full invariant of reachable `Location` table states. -/
structure Inv (db : LocDB) : Prop where
  tree : TreeInv db
  pathOk : PathOk db

lemma ancestorChain_ne_nil {db : LocDB} {l : Location} {ch : List Location}
    (h : ancestorChain db l = some ch) : ∃ pre, ch = pre ++ [l] := by
  obtain ⟨pre, hpre⟩ := ancestorChainAux_suffix db (db.length + 1) l [] ch h
  exact ⟨pre, hpre⟩

lemma chainSlugPath_root {db : LocDB} {l : Location} (hp : l.parent = none) :
    chainSlugPath db l = some l.slug := by
  unfold chainSlugPath
  rw [ancestorChain_root hp]
  rfl

lemma chainSlugPath_parent {db : LocDB} (hinv : TreeInv db) {l p : Location}
    (hl : l ∈ db) {pid : Nat} (hp : l.parent = some pid)
    (hf : lookupLoc db pid = some p) {s : String} (hps : chainSlugPath db p = some s) :
    chainSlugPath db l = some (s ++ "/" ++ l.slug) := by
  unfold chainSlugPath at hps ⊢
  rw [ancestorChain_cons hinv hl hp hf]
  cases hch : ancestorChain db p with
  | none => rw [hch] at hps; exact Option.noConfusion hps
  | some ch =>
    rw [hch] at hps
    simp only [Option.map_some', Option.some.injEq] at hps ⊢
    obtain ⟨pre, hpre⟩ := ancestorChain_ne_nil hch
    simp only [List.map_append, List.map_cons, List.map_nil]
    rw [intercalate_slash_append _ _ (by simp [hpre])]
    rw [hps]

lemma chainSlugPath_ne_empty {db : LocDB} (hinv : TreeInv db) {l : Location} (hl : l ∈ db)
    {s : String} (hs : chainSlugPath db l = some s) : s ≠ "" := by
  unfold chainSlugPath at hs
  cases hch : ancestorChain db l with
  | none => rw [hch] at hs; exact Option.noConfusion hs
  | some ch =>
    rw [hch] at hs
    simp only [Option.map_some', Option.some.injEq] at hs
    obtain ⟨pre, hpre⟩ := ancestorChain_ne_nil hch
    subst hpre
    simp only [List.map_append, List.map_cons, List.map_nil] at hs
    rw [← hs]
    exact intercalate_slash_ne_empty _ _ (hinv.slugNe l hl)

lemma sameStruct_foldl (f : LocDB → Location → LocDB)
    (hf : ∀ acc child, sameStruct acc (f acc child)) :
    ∀ (children : List Location) (acc : LocDB),
      sameStruct acc (children.foldl f acc) := by
  intro children
  induction children with
  | nil => intro acc; exact sameStruct_refl acc
  | cons c cs ihc =>
    intro acc
    exact sameStruct_trans (hf acc c) (ihc (f acc c))

lemma sameStruct_rebuild :
    ∀ (fuel : Nat) (db : LocDB) (selfId : Nat) (selfPath : String),
      sameStruct db (rebuildDescendantPaths fuel db selfId selfPath) := by
  intro fuel
  induction fuel with
  | zero => intro db selfId selfPath; exact sameStruct_refl db
  | succ n ih =>
    intro db selfId selfPath
    show sameStruct db
      ((db.filter (fun l => l.parent == some selfId)).foldl
        (fun acc child =>
          let newPath := if selfPath ≠ "" then selfPath ++ "/" ++ child.slug else child.slug
          let acc' := if child.path_cache ≠ newPath then updatePathCacheById acc child.id newPath
                      else acc
          rebuildDescendantPaths n acc' child.id newPath)
        db)
    refine sameStruct_foldl _ ?_ _ db
    intro acc child
    have hstep : sameStruct acc (if child.path_cache ≠
        (if selfPath ≠ "" then selfPath ++ "/" ++ child.slug else child.slug)
      then updatePathCacheById acc child.id
        (if selfPath ≠ "" then selfPath ++ "/" ++ child.slug else child.slug)
      else acc) := by
      by_cases hc : child.path_cache =
          (if selfPath ≠ "" then selfPath ++ "/" ++ child.slug else child.slug)
      · simp [hc]
        exact sameStruct_refl acc
      · rw [if_pos hc]
        exact sameStruct_updatePathCacheById acc child.id _
    exact sameStruct_trans hstep (ih _ _ _)

lemma saveLoc_shape {db : LocDB} {loc : Location} {db' : LocDB}
    (h : saveLoc db loc = some db') :
    ∃ newPath db2,
      computePathCache (upsertLoc db loc) loc.parent loc.slug = some newPath ∧
      (db2 = upsertLoc db loc ∨
        db2 = updatePathCacheById (upsertLoc db loc) loc.id newPath) ∧
      (db' = db2 ∨ db' = rebuildDescendantPaths db2.length db2 loc.id newPath) := by
  simp only [saveLoc] at h
  cases hcomp : computePathCache (upsertLoc db loc) loc.parent loc.slug with
  | none => rw [hcomp] at h; exact Option.noConfusion h
  | some newPath =>
    rw [hcomp] at h
    dsimp only [] at h
    by_cases hpc : newPath ≠ loc.path_cache
    · rw [if_pos (Or.inl hpc), if_pos hpc] at h
      injection h with h
      exact ⟨newPath, updatePathCacheById (upsertLoc db loc) loc.id newPath, rfl,
        Or.inr rfl, Or.inr h.symm⟩
    · rw [if_neg hpc] at h
      by_cases hrest : (lookupLoc db loc.id).bind (fun l => l.parent) ≠ loc.parent ∨
          (lookupLoc db loc.id).map (fun l => l.slug) ≠ some loc.slug
      · rw [if_pos (Or.elim hrest (fun hr => Or.inr (Or.inl hr))
          (fun hr => Or.inr (Or.inr hr)))] at h
        injection h with h
        exact ⟨newPath, upsertLoc db loc, rfl, Or.inl rfl, Or.inr h.symm⟩
      · push_neg at hrest
        rw [if_neg (by
          intro hcontra
          rcases hcontra with hc | hc | hc
          · exact hpc hc
          · exact hc hrest.1
          · exact hc hrest.2)] at h
        injection h with h
        exact ⟨newPath, upsertLoc db loc, rfl, Or.inl rfl, Or.inl h.symm⟩

lemma saveLoc_sameStruct {db : LocDB} {loc : Location} {db' : LocDB}
    (h : saveLoc db loc = some db') : sameStruct (upsertLoc db loc) db' := by
  obtain ⟨newPath, db2, -, hdb2, hdb'⟩ := saveLoc_shape h
  have h1 : sameStruct (upsertLoc db loc) db2 := by
    rcases hdb2 with rfl | rfl
    · exact sameStruct_refl _
    · exact sameStruct_updatePathCacheById _ _ _
  rcases hdb' with rfl | rfl
  · exact h1
  · exact sameStruct_trans h1 (sameStruct_rebuild _ _ _ _)

lemma acyclic_of_edge_subset {db db' : LocDB}
    (h : ∀ c p, ParentEdge db' c p → ParentEdge db c p)
    (hac : AcyclicDB db) : AcyclicDB db' := fun i hi =>
  hac i (Relation.TransGen.mono (fun {c p} hcp => h c p hcp) hi)

lemma reflTransGen_reparent {E E' : Nat → Nat → Prop} {m qp : Nat}
    (hsplit : ∀ c p, E' c p → (c ≠ m ∧ E c p) ∨ (c = m ∧ p = qp)) :
    ∀ a b, Relation.ReflTransGen E' a b →
      Relation.ReflTransGen E a b ∨
        (Relation.ReflTransGen E a m ∧ Relation.ReflTransGen E' qp b) := by
  intro a b hab
  induction hab using Relation.ReflTransGen.head_induction_on with
  | refl => exact Or.inl Relation.ReflTransGen.refl
  | head hstep hrest ih =>
    rcases hsplit _ _ hstep with ⟨hne, hE⟩ | ⟨rfl, rfl⟩
    · rcases ih with hcb | ⟨hcm, hq⟩
      · exact Or.inl (Relation.ReflTransGen.head hE hcb)
      · exact Or.inr ⟨Relation.ReflTransGen.head hE hcm, hq⟩
    · exact Or.inr ⟨Relation.ReflTransGen.refl, hrest⟩

lemma acyclic_reparent {db db' : LocDB} {m qp : Nat}
    (hsplit : ∀ c p, ParentEdge db' c p →
      (c ≠ m ∧ ParentEdge db c p) ∨ (c = m ∧ p = qp))
    (hac : AcyclicDB db)
    (hguard : ¬ Relation.ReflTransGen (ParentEdge db) qp m) :
    AcyclicDB db' := by
  intro i hi
  have hi' : Relation.TransGen (ParentEdge db') i i := hi
  obtain ⟨c, hic, hci⟩ := Relation.TransGen.head'_iff.mp hi'
  have htrans := reflTransGen_reparent hsplit
  rcases hsplit _ _ hic with ⟨hne, hE⟩ | ⟨him, hcq⟩
  · rcases htrans c i hci with hcb | ⟨hcm, hq⟩
    · exact hac i (Relation.TransGen.head' hE hcb)
    · have him : Relation.ReflTransGen (ParentEdge db) i m :=
        Relation.ReflTransGen.head hE hcm
      rcases htrans qp i hq with hqi | ⟨hqm, -⟩
      · exact hguard (hqi.trans him)
      · exact hguard hqm
  · rw [hcq, him] at hci
    rcases htrans qp m hci with hqi | ⟨hqm, -⟩
    · exact hguard hqi
    · exact hguard hqm

lemma cleanWalk_spec (db : LocDB) (hinv : TreeInv db) {m : Nat} (hm : m ≠ 0) :
    ∀ (fuel : Nat) (start : Option Nat) (seen : Finset Nat),
      (∀ s, start = some s → ∃ l ∈ db, l.id = s) →
      (∀ s ∈ seen, ∀ c, start = some c → Relation.TransGen (ParentEdge db) s c) →
      ((db.map (fun l => l.id)).toFinset \ seen).card < fuel →
      (cleanWalk db (some m) fuel start = WalkOutcome.cycle ↔
        ∃ s, start = some s ∧ Relation.ReflTransGen (ParentEdge db) s m) := by
  intro fuel
  induction fuel with
  | zero =>
    intro start seen hstart _ hcard
    cases start with
    | none =>
      constructor
      · intro h
        rw [show cleanWalk db (some m) 0 none = WalkOutcome.ok from rfl] at h
        exact WalkOutcome.noConfusion h
      · rintro ⟨s, hs, -⟩
        exact Option.noConfusion hs
    | some c => exact absurd hcard (Nat.not_lt_zero _)
  | succ n ih =>
    intro start seen hstart hanc hcard
    cases start with
    | none =>
      constructor
      · intro h
        rw [show cleanWalk db (some m) (n + 1) none = WalkOutcome.ok from rfl] at h
        exact WalkOutcome.noConfusion h
      · rintro ⟨s, hs, -⟩
        exact Option.noConfusion hs
    | some c =>
      obtain ⟨lc, hlcmem, hlcid⟩ := hstart c rfl
      obtain ⟨cur, hfind, hcurmem, hcurid⟩ := lookupLoc_of_exists ⟨lc, hlcmem, hlcid⟩
      have hcnotseen : c ∉ seen := by
        intro hcs
        exact hinv.acyclic c (hanc c hcs c rfl)
      have hcin : c ∈ (db.map (fun x => x.id)).toFinset := by
        refine List.mem_toFinset.mpr ?_
        rw [← hcurid]
        exact List.mem_map_of_mem _ hcurmem
      by_cases hmc : m = c
      · subst hmc
        have hwalk : cleanWalk db (some m) (n + 1) (some m) = WalkOutcome.cycle := by
          show cleanWalk db (some m) (n + 1) (some m) = WalkOutcome.cycle
          simp [cleanWalk, hm]
        rw [hwalk]
        simp only [true_iff]
        exact ⟨m, rfl, Relation.ReflTransGen.refl⟩
      · have hwalk : cleanWalk db (some m) (n + 1) (some c) =
            cleanWalk db (some m) n cur.parent := by
          have hcond : ¬ ((some m : Option Nat).getD 0 ≠ 0 ∧ (some m : Option Nat) = some c) := by
            rintro ⟨-, h2⟩
            injection h2 with h2
            exact hmc h2
          show cleanWalk db (some m) (n + 1) (some c) = cleanWalk db (some m) n cur.parent
          simp only [cleanWalk, hfind]
          rw [if_neg hcond]
        have hedge : ∀ p, cur.parent = some p → ParentEdge db c p := by
          intro p hp
          show parentOf db c = some p
          unfold parentOf
          rw [hfind]
          simpa using hp
        have hss : (db.map (fun x => x.id)).toFinset \ insert c seen ⊂
            (db.map (fun x => x.id)).toFinset \ seen := by
          refine Finset.ssubset_iff_of_subset
            (Finset.sdiff_subset_sdiff (Finset.Subset.refl _) (Finset.subset_insert _ _))
            |>.mpr ?_
          refine ⟨c, Finset.mem_sdiff.mpr ⟨hcin, hcnotseen⟩, ?_⟩
          intro hmem
          exact (Finset.mem_sdiff.mp hmem).2 (Finset.mem_insert_self _ _)
        have hcard' := Finset.card_lt_card hss
        have hih := ih cur.parent (insert c seen)
          (fun s hs => hinv.parentsExist cur hcurmem s hs)
          (by
            intro s hs c' hc'
            have hedgec : Relation.TransGen (ParentEdge db) c c' :=
              Relation.TransGen.single (hedge c' hc')
            rcases Finset.mem_insert.mp hs with rfl | hs'
            · exact hedgec
            · exact Relation.TransGen.trans (hanc s hs' c rfl) hedgec)
          (by omega)
        rw [hwalk, hih]
        constructor
        · rintro ⟨s, hs, hsm⟩
          exact ⟨c, rfl, Relation.ReflTransGen.head (hedge s hs) hsm⟩
        · rintro ⟨s, hs, hsm⟩
          injection hs with hs
          subst hs
          rcases hsm.cases_head with rfl | ⟨x, hx, hxm⟩
          · exact absurd rfl hmc
          · have hpx : cur.parent = some x := by
              have hpc : parentOf db c = some x := hx
              unfold parentOf at hpc
              rw [hfind] at hpc
              simpa using hpc
            exact ⟨x, hpx, hxm⟩

lemma mem_key_of_sameStruct {db1 db2 : LocDB} (h : sameStruct db1 db2) :
    ∀ l2 ∈ db2, ∃ l1 ∈ db1, locKey l1 = locKey l2 := by
  unfold sameStruct at h
  induction db1 generalizing db2 with
  | nil =>
    cases db2 with
    | nil => intro l2 hl2; exact absurd hl2 (List.not_mem_nil l2)
    | cons h2 t2 => exact absurd h (by simp)
  | cons h1 t1 ih =>
    cases db2 with
    | nil => exact absurd h (by simp)
    | cons h2 t2 =>
      simp only [List.map_cons, List.cons.injEq] at h
      intro l2 hl2
      rcases List.mem_cons.mp hl2 with rfl | hl2'
      · exact ⟨h1, List.mem_cons_self h1 t1, h.1⟩
      · obtain ⟨l1, hl1, hk⟩ := ih h.2 l2 hl2'
        exact ⟨l1, List.mem_cons_of_mem h1 hl1, hk⟩

lemma length_of_sameStruct {db1 db2 : LocDB} (h : sameStruct db1 db2) :
    db1.length = db2.length := by
  unfold sameStruct at h
  have := congrArg List.length h
  simpa using this

lemma treeInv_of_sameStruct {db1 db2 : LocDB} (h : sameStruct db1 db2)
    (hinv : TreeInv db1) : TreeInv db2 := by
  have hids := ids_of_sameStruct h
  refine ⟨?_, ?_, ?_, ?_, ?_⟩
  · rw [← hids]; exact hinv.nodup
  · intro l hl
    obtain ⟨l1, hl1, hk⟩ := mem_key_of_sameStruct h l hl
    have : l1.id = l.id := congrArg Prod.fst hk
    rw [← this]
    exact hinv.pos l1 hl1
  · intro l hl p hp
    obtain ⟨l1, hl1, hk⟩ := mem_key_of_sameStruct h l hl
    have hpar : l1.parent = l.parent := congrArg (fun k => k.2.2) hk
    obtain ⟨l2, hl2, hl2id⟩ := hinv.parentsExist l1 hl1 p (by rw [hpar]; exact hp)
    have : l2.id ∈ db2.map (fun x => x.id) := by
      rw [← hids]
      exact List.mem_map_of_mem _ hl2
    obtain ⟨l3, hl3, hl3id⟩ := List.mem_map.mp this
    exact ⟨l3, hl3, by rw [hl3id, hl2id]⟩
  · intro i hi
    exact hinv.acyclic i ((isStrictDescendant_iff_of_sameStruct h i i).mpr hi)
  · intro l hl
    obtain ⟨l1, hl1, hk⟩ := mem_key_of_sameStruct h l hl
    have : l1.slug = l.slug := congrArg (fun k => k.2.1) hk
    rw [← this]
    exact hinv.slugNe l1 hl1

/-- Specification path of the row with primary key `i`. -/
def specPathOfId (db : LocDB) (i : Nat) : Option String :=
  (lookupLoc db i).bind (fun l => chainSlugPath db l)

lemma slugs_of_locKeys {ch1 ch2 : List Location}
    (h : ch1.map locKey = ch2.map locKey) :
    ch1.map (fun x => x.slug) = ch2.map (fun x => x.slug) := by
  have h1 : (ch1.map locKey).map (fun k => k.2.1) =
      (ch2.map locKey).map (fun k => k.2.1) := by rw [h]
  rw [List.map_map, List.map_map] at h1
  exact h1

lemma specPathOfId_of_sameStruct {db1 db2 : LocDB} (h : sameStruct db1 db2) (i : Nat) :
    specPathOfId db1 i = specPathOfId db2 i := by
  unfold specPathOfId
  have hk := lookup_locKey_of_sameStruct h i
  cases h1 : lookupLoc db1 i with
  | none =>
    cases h2 : lookupLoc db2 i with
    | none => rfl
    | some l2 => rw [h1, h2] at hk; exact Option.noConfusion hk
  | some l1 =>
    cases h2 : lookupLoc db2 i with
    | none => rw [h1, h2] at hk; exact Option.noConfusion hk
    | some l2 =>
      rw [h1, h2] at hk
      simp only [Option.map_some', Option.some.injEq] at hk
      simp only [Option.some_bind]
      unfold chainSlugPath ancestorChain
      have hlen := length_of_sameStruct h
      rw [hlen]
      have hch := ancestorChainAux_locKey_of_sameStruct h (db2.length + 1)
        (some l1) (some l2) [] [] (by simpa using hk) rfl
      cases hc1 : ancestorChainAux db1 (db2.length + 1) (some l1) [] with
      | none =>
        cases hc2 : ancestorChainAux db2 (db2.length + 1) (some l2) [] with
        | none => rfl
        | some ch2 => rw [hc1, hc2] at hch; exact Option.noConfusion hch
      | some ch1 =>
        cases hc2 : ancestorChainAux db2 (db2.length + 1) (some l2) [] with
        | none => rw [hc1, hc2] at hch; exact Option.noConfusion hch
        | some ch2 =>
          rw [hc1, hc2] at hch
          simp only [Option.map_some', Option.some.injEq] at hch
          simp only [Option.map_some', Option.some.injEq]
          rw [slugs_of_locKeys hch]

lemma parentEdge_functional {db : LocDB} {a x y : Nat}
    (h1 : ParentEdge db a x) (h2 : ParentEdge db a y) : x = y := by
  unfold ParentEdge at h1 h2
  rw [h1] at h2
  injection h2

lemma reflTransGen_comparable {db : LocDB} {a b c : Nat}
    (hab : Relation.ReflTransGen (ParentEdge db) a b)
    (hac : Relation.ReflTransGen (ParentEdge db) a c) :
    Relation.ReflTransGen (ParentEdge db) b c ∨
      Relation.ReflTransGen (ParentEdge db) c b := by
  induction hab using Relation.ReflTransGen.head_induction_on with
  | refl => exact Or.inl hac
  | head hstep _ ih =>
    rcases hac.cases_head with rfl | ⟨y, hy, hyc⟩
    · exact Or.inr (Relation.ReflTransGen.head hstep (by assumption))
    · have hxy := parentEdge_functional hstep hy
      subst hxy
      exact ih hyc

lemma sibling_under_disjoint {db : LocDB} (hac : AcyclicDB db) {c1 c2 s i : Nat}
    (h1 : ParentEdge db c1 s) (h2 : ParentEdge db c2 s) (hne : c1 ≠ c2)
    (hi1 : Relation.ReflTransGen (ParentEdge db) i c1)
    (hi2 : Relation.ReflTransGen (ParentEdge db) i c2) : False := by
  have key : ∀ a b : Nat, ParentEdge db a s → ParentEdge db b s → a ≠ b →
      Relation.ReflTransGen (ParentEdge db) a b → False := by
    intro a b ha hb hab hr
    rcases hr.cases_head with rfl | ⟨y, hy, hyb⟩
    · exact hab rfl
    · have hys := parentEdge_functional hy ha
      subst hys
      exact hac b (Relation.TransGen.head' hb hyb)
  rcases reflTransGen_comparable hi1 hi2 with h12 | h21
  · exact key c1 c2 h1 h2 hne h12
  · exact key c2 c1 h2 h1 (Ne.symm hne) h21

lemma parentEdge_of_row {db : LocDB} (hnd : (db.map (fun l => l.id)).Nodup)
    {c : Location} (hc : c ∈ db) {s : Nat} (hp : c.parent = some s) :
    ParentEdge db c.id s := by
  show parentOf db c.id = some s
  unfold parentOf
  rw [lookupLoc_of_mem hnd hc]
  simpa using hp

open scoped Classical in
lemma rebuild_correct :
    ∀ (fuel : Nat) (db : LocDB) (selfId : Nat) (selfPath : String),
      TreeInv db →
      ((db.map (fun l => l.id)).toFinset.filter
        (fun i => IsStrictDescendant db i selfId)).card < fuel →
      (∃ lself, lookupLoc db selfId = some lself ∧
        chainSlugPath db lself = some selfPath) →
      (∀ i, IsStrictDescendant db i selfId →
        (lookupLoc (rebuildDescendantPaths fuel db selfId selfPath) i).map
          (fun l => l.path_cache) = specPathOfId db i) ∧
      (∀ i, ¬ IsStrictDescendant db i selfId →
        lookupLoc (rebuildDescendantPaths fuel db selfId selfPath) i =
          lookupLoc db i) := by
  intro fuel
  induction fuel with
  | zero =>
    intro db selfId selfPath _ hfuel _
    exact absurd hfuel (Nat.not_lt_zero _)
  | succ n ih =>
    intro db selfId selfPath hinv hfuel hself
    obtain ⟨lself, hlself, hlpath⟩ := hself
    have hselfmem : lself ∈ db := (mem_of_lookupLoc hlself).1
    have hselfne : selfPath ≠ "" := chainSlugPath_ne_empty hinv hselfmem hlpath
    have hbody : rebuildDescendantPaths (n + 1) db selfId selfPath =
        (db.filter (fun l => l.parent == some selfId)).foldl
          (fun acc child =>
            rebuildDescendantPaths n
              (if child.path_cache ≠ selfPath ++ "/" ++ child.slug
               then updatePathCacheById acc child.id (selfPath ++ "/" ++ child.slug)
               else acc)
              child.id (selfPath ++ "/" ++ child.slug))
          db := by
      show (db.filter (fun l => l.parent == some selfId)).foldl
          (fun acc child =>
            let newPath := if selfPath ≠ "" then selfPath ++ "/" ++ child.slug else child.slug
            let acc' := if child.path_cache ≠ newPath
                        then updatePathCacheById acc child.id newPath else acc
            rebuildDescendantPaths n acc' child.id newPath)
          db = _
      have hfun : (fun (acc : LocDB) (child : Location) =>
          let newPath := if selfPath ≠ "" then selfPath ++ "/" ++ child.slug else child.slug
          let acc' := if child.path_cache ≠ newPath
                      then updatePathCacheById acc child.id newPath else acc
          rebuildDescendantPaths n acc' child.id newPath) =
          (fun (acc : LocDB) (child : Location) =>
            rebuildDescendantPaths n
              (if child.path_cache ≠ selfPath ++ "/" ++ child.slug
               then updatePathCacheById acc child.id (selfPath ++ "/" ++ child.slug)
               else acc)
              child.id (selfPath ++ "/" ++ child.slug)) := by
        funext acc child
        simp only [if_pos hselfne]
      rw [hfun]
    have hgo : ∀ (cs : List Location),
        (∀ c ∈ cs, c ∈ db ∧ c.parent = some selfId) →
        (cs.map (fun l => l.id)).Nodup →
        ∀ acc : LocDB, sameStruct db acc →
        (∀ c ∈ cs, lookupLoc acc c.id = lookupLoc db c.id) →
        sameStruct db (cs.foldl
          (fun acc child =>
            rebuildDescendantPaths n
              (if child.path_cache ≠ selfPath ++ "/" ++ child.slug
               then updatePathCacheById acc child.id (selfPath ++ "/" ++ child.slug)
               else acc)
              child.id (selfPath ++ "/" ++ child.slug)) acc) ∧
        (∀ i, (∃ c ∈ cs, Relation.ReflTransGen (ParentEdge db) i c.id) →
          (lookupLoc (cs.foldl
            (fun acc child =>
              rebuildDescendantPaths n
                (if child.path_cache ≠ selfPath ++ "/" ++ child.slug
                 then updatePathCacheById acc child.id (selfPath ++ "/" ++ child.slug)
                 else acc)
                child.id (selfPath ++ "/" ++ child.slug)) acc) i).map
            (fun l => l.path_cache) = specPathOfId db i) ∧
        (∀ i, ¬ (∃ c ∈ cs, Relation.ReflTransGen (ParentEdge db) i c.id) →
          lookupLoc (cs.foldl
            (fun acc child =>
              rebuildDescendantPaths n
                (if child.path_cache ≠ selfPath ++ "/" ++ child.slug
                 then updatePathCacheById acc child.id (selfPath ++ "/" ++ child.slug)
                 else acc)
                child.id (selfPath ++ "/" ++ child.slug)) acc) i = lookupLoc acc i) := by
      intro cs
      induction cs with
      | nil =>
        intro _ _ acc hsame _
        refine ⟨hsame, ?_, ?_⟩
        · rintro i ⟨c, hc, -⟩
          exact absurd hc (List.not_mem_nil c)
        · intro i _
          rfl
      | cons c cs' ihc =>
        intro hmem hnd acc hsame hlook
        obtain ⟨hcdb, hcpar⟩ := hmem c (List.mem_cons_self c cs')
        simp only [List.map_cons, List.nodup_cons] at hnd
        have hlookc : lookupLoc acc c.id = some c := by
          rw [hlook c (List.mem_cons_self c cs'), lookupLoc_of_mem hinv.nodup hcdb]
        set np := selfPath ++ "/" ++ c.slug with hnp
        set acc1 := if c.path_cache ≠ np then updatePathCacheById acc c.id np else acc
          with hacc1
        have hlookacc1 : lookupLoc acc1 c.id = some { c with path_cache := np } := by
          by_cases hpc : c.path_cache ≠ np
          · rw [hacc1, if_pos hpc, lookup_updatePathCacheById, hlookc]
            simp
          · push_neg at hpc
            rw [hacc1, if_neg (fun h => h hpc), hlookc]
            rw [show ({ c with path_cache := np } : Location) = c from by rw [← hpc]]
        have hsame1 : sameStruct db acc1 := by
          rw [hacc1]
          by_cases hpc : c.path_cache ≠ np
          · rw [if_pos hpc]
            exact sameStruct_trans hsame (sameStruct_updatePathCacheById acc c.id np)
          · rw [if_neg hpc]
            exact hsame
        have hspecc : chainSlugPath db c = some np := by
          rw [hnp]
          exact chainSlugPath_parent hinv hcdb hcpar hlself hlpath
        have hspecid : specPathOfId db c.id = some np := by
          unfold specPathOfId
          rw [lookupLoc_of_mem hinv.nodup hcdb]
          simpa using hspecc
        have hself1 : ∃ lc, lookupLoc acc1 c.id = some lc ∧
            chainSlugPath acc1 lc = some np := by
          refine ⟨{ c with path_cache := np }, hlookacc1, ?_⟩
          have h1 : specPathOfId acc1 c.id = some np := by
            rw [← specPathOfId_of_sameStruct hsame1 c.id]
            exact hspecid
          unfold specPathOfId at h1
          rw [hlookacc1] at h1
          simpa using h1
        have hedgec : ParentEdge db c.id selfId := parentEdge_of_row hinv.nodup hcdb hcpar
        have hdesc_iff : ∀ x y, IsStrictDescendant acc1 x y ↔ IsStrictDescendant db x y :=
          fun x y => (isStrictDescendant_iff_of_sameStruct hsame1 x y).symm
        have hspec_eq : ∀ i, specPathOfId acc1 i = specPathOfId db i :=
          fun i => (specPathOfId_of_sameStruct hsame1 i).symm
        have hdesclt : ((acc1.map (fun l => l.id)).toFinset.filter
            (fun i => IsStrictDescendant acc1 i c.id)).card < n := by
          have hids1 : acc1.map (fun l => l.id) = db.map (fun l => l.id) :=
            (ids_of_sameStruct hsame1).symm
          have hfilter_eq : ((acc1.map (fun l => l.id)).toFinset.filter
              (fun i => IsStrictDescendant acc1 i c.id)) =
              ((db.map (fun l => l.id)).toFinset.filter
                (fun i => IsStrictDescendant db i c.id)) := by
            rw [hids1]
            exact Finset.filter_congr (fun x _ => hdesc_iff x c.id)
          have hsubset : ((db.map (fun l => l.id)).toFinset.filter
              (fun i => IsStrictDescendant db i c.id)) ⊂
              ((db.map (fun l => l.id)).toFinset.filter
                (fun i => IsStrictDescendant db i selfId)) := by
            refine Finset.ssubset_iff_of_subset ?_ |>.mpr ?_
            · intro x hx
              obtain ⟨hxids, hxdesc⟩ := Finset.mem_filter.mp hx
              exact Finset.mem_filter.mpr ⟨hxids, Relation.TransGen.tail hxdesc hedgec⟩
            · refine ⟨c.id, Finset.mem_filter.mpr
                ⟨List.mem_toFinset.mpr (List.mem_map_of_mem _ hcdb),
                  Relation.TransGen.single hedgec⟩, ?_⟩
              intro hmem2
              exact hinv.acyclic c.id (Finset.mem_filter.mp hmem2).2
          have hlt := Finset.card_lt_card hsubset
          rw [hfilter_eq]
          omega
        obtain ⟨hA, hB⟩ := ih acc1 c.id np (treeInv_of_sameStruct hsame1 hinv) hdesclt hself1
        have hS1 : ∀ i, Relation.ReflTransGen (ParentEdge db) i c.id →
            (lookupLoc (rebuildDescendantPaths n acc1 c.id np) i).map
              (fun l => l.path_cache) = specPathOfId db i := by
          intro i hi
          rcases Relation.reflTransGen_iff_eq_or_transGen.mp hi with rfl | htg
          · have hnotdesc : ¬ IsStrictDescendant acc1 c.id c.id :=
              fun hcon => hinv.acyclic c.id ((hdesc_iff _ _).mp hcon)
            rw [hB c.id hnotdesc, hlookacc1]
            simp only [Option.map_some']
            rw [hspecid]
          · have hd : IsStrictDescendant acc1 i c.id := (hdesc_iff _ _).mpr htg
            rw [hA i hd, hspec_eq i]
        have hS2 : ∀ i, ¬ Relation.ReflTransGen (ParentEdge db) i c.id →
            lookupLoc (rebuildDescendantPaths n acc1 c.id np) i = lookupLoc acc i := by
          intro i hi
          have hne : i ≠ c.id := fun he => hi (he ▸ Relation.ReflTransGen.refl)
          have hnotdesc : ¬ IsStrictDescendant acc1 i c.id := fun hcon =>
            hi (Relation.TransGen.to_reflTransGen ((hdesc_iff _ _).mp hcon))
          rw [hB i hnotdesc, hacc1]
          by_cases hpc : c.path_cache ≠ np
          · rw [if_pos hpc]
            exact lookup_updatePathCacheById_other hne
          · rw [if_neg hpc]
        have hlook' : ∀ c' ∈ cs',
            lookupLoc (rebuildDescendantPaths n acc1 c.id np) c'.id = lookupLoc db c'.id := by
          intro c' hc'
          obtain ⟨hc'db, hc'par⟩ := hmem c' (List.mem_cons_of_mem c hc')
          have hne : c'.id ≠ c.id := by
            intro he
            exact hnd.1 (he ▸ List.mem_map_of_mem (fun l => l.id) hc')
          have hnr : ¬ Relation.ReflTransGen (ParentEdge db) c'.id c.id := by
            intro hr
            exact sibling_under_disjoint hinv.acyclic
              (parentEdge_of_row hinv.nodup hc'db hc'par) hedgec hne
              Relation.ReflTransGen.refl hr
          rw [hS2 c'.id hnr]
          exact hlook c' (List.mem_cons_of_mem c hc')
        have hsame_r1 : sameStruct db (rebuildDescendantPaths n acc1 c.id np) :=
          sameStruct_trans hsame1 (sameStruct_rebuild n acc1 c.id np)
        obtain ⟨hsameRest, hO1', hO2'⟩ := ihc
          (fun c' hc' => hmem c' (List.mem_cons_of_mem c hc')) hnd.2
          (rebuildDescendantPaths n acc1 c.id np) hsame_r1 hlook'
        have hfold : (c :: cs').foldl
            (fun acc child =>
              rebuildDescendantPaths n
                (if child.path_cache ≠ selfPath ++ "/" ++ child.slug
                 then updatePathCacheById acc child.id (selfPath ++ "/" ++ child.slug)
                 else acc)
                child.id (selfPath ++ "/" ++ child.slug)) acc =
            cs'.foldl
              (fun acc child =>
                rebuildDescendantPaths n
                  (if child.path_cache ≠ selfPath ++ "/" ++ child.slug
                   then updatePathCacheById acc child.id (selfPath ++ "/" ++ child.slug)
                   else acc)
                  child.id (selfPath ++ "/" ++ child.slug))
              (rebuildDescendantPaths n acc1 c.id np) := rfl
        rw [hfold]
        refine ⟨hsameRest, ?_, ?_⟩
        · intro i hi
          by_cases hics' : ∃ c' ∈ cs', Relation.ReflTransGen (ParentEdge db) i c'.id
          · exact hO1' i hics'
          · have hic : Relation.ReflTransGen (ParentEdge db) i c.id := by
              obtain ⟨c'', hc'', hr⟩ := hi
              rcases List.mem_cons.mp hc'' with rfl | h'
              · exact hr
              · exact absurd ⟨c'', h', hr⟩ hics'
            rw [hO2' i hics']
            exact hS1 i hic
        · intro i hi
          have hics' : ¬ ∃ c' ∈ cs', Relation.ReflTransGen (ParentEdge db) i c'.id := by
            rintro ⟨c', h', hr⟩
            exact hi ⟨c', List.mem_cons_of_mem c h', hr⟩
          have hicnot : ¬ Relation.ReflTransGen (ParentEdge db) i c.id := fun hr =>
            hi ⟨c, List.mem_cons_self c cs', hr⟩
          rw [hO2' i hics']
          exact hS2 i hicnot
    have hchildren : ∀ c ∈ db.filter (fun l => l.parent == some selfId),
        c ∈ db ∧ c.parent = some selfId := by
      intro c hc
      have hmf := List.mem_filter.mp hc
      exact ⟨hmf.1, by simpa using hmf.2⟩
    have hndch : ((db.filter (fun l => l.parent == some selfId)).map
        (fun l => l.id)).Nodup :=
      List.Nodup.sublist (List.Sublist.map _ (List.filter_sublist db)) hinv.nodup
    obtain ⟨-, hO1, hO2⟩ := hgo (db.filter (fun l => l.parent == some selfId))
      hchildren hndch db (sameStruct_refl db) (fun c _ => rfl)
    have hcover : ∀ i, IsStrictDescendant db i selfId ↔
        ∃ c ∈ db.filter (fun l => l.parent == some selfId),
          Relation.ReflTransGen (ParentEdge db) i c.id := by
      intro i
      constructor
      · intro hd
        obtain ⟨b, hib, hbs⟩ := Relation.TransGen.tail'_iff.mp hd
        have hpb : parentOf db b = some selfId := hbs
        unfold parentOf at hpb
        cases hfb : lookupLoc db b with
        | none => rw [hfb] at hpb; exact Option.noConfusion hpb
        | some lb =>
          rw [hfb] at hpb
          simp only [Option.some_bind] at hpb
          have hlbmem := (mem_of_lookupLoc hfb).1
          have hlbid := (mem_of_lookupLoc hfb).2
          refine ⟨lb, List.mem_filter.mpr ⟨hlbmem, by simpa using hpb⟩, ?_⟩
          rw [hlbid]
          exact hib
      · rintro ⟨c, hcf, hr⟩
        obtain ⟨hcdb, hcpar⟩ := hchildren c hcf
        exact Relation.TransGen.tail'_iff.mpr
          ⟨c.id, hr, parentEdge_of_row hinv.nodup hcdb hcpar⟩
    rw [hbody]
    constructor
    · intro i hd
      exact hO1 i ((hcover i).mp hd)
    · intro i hd
      exact hO2 i (fun hc => hd ((hcover i).mpr hc))

lemma cleanLoc_ok {db : LocDB} {selfId parentId : Option Nat} {name slug slug1 : String}
    (h : cleanLoc db selfId parentId name slug = CleanResult.ok slug1) :
    slug1 = (if slug = "" then slugify name else slug) ∧ slug1 ≠ "" ∧
      cleanWalk db selfId (db.length + 1) parentId = WalkOutcome.ok := by
  simp only [cleanLoc] at h
  by_cases h1 : (if slug = "" then slugify name else slug) = ""
  · rw [if_pos h1] at h
    exact CleanResult.noConfusion h
  · rw [if_neg h1] at h
    by_cases h2 : parentId.getD 0 ≠ 0 ∧ parentId = selfId
    · rw [if_pos h2] at h
      exact CleanResult.noConfusion h
    · rw [if_neg h2] at h
      cases hw : cleanWalk db selfId (db.length + 1) parentId with
      | ok =>
        rw [hw] at h
        dsimp only [] at h
        injection h with h
        exact ⟨h.symm, h ▸ h1, rfl⟩
      | cycle =>
        rw [hw] at h
        dsimp only [] at h
        exact CleanResult.noConfusion h
      | diverge =>
        rw [hw] at h
        dsimp only [] at h
        exact CleanResult.noConfusion h

lemma createOp_shape {db : LocDB} {newId : Nat} {parentId : Option Nat}
    {name slug : String} {db' : LocDB}
    (h : createOp db newId parentId name slug = some db') :
    ∃ slug1, cleanLoc db none parentId name slug = CleanResult.ok slug1 ∧
      saveLoc db { id := newId, name := name, slug := slug1, parent := parentId,
                   path_cache := "", groups := [] } = some db' := by
  unfold createOp at h
  cases hc : cleanLoc db none parentId name slug with
  | ok slug1 =>
    rw [hc] at h
    dsimp only [] at h
    by_cases hu : db.any (fun l => l.parent == parentId && (l.name == name || l.slug == slug1))
    · rw [if_pos hu] at h
      exact Option.noConfusion h
    · rw [if_neg hu] at h
      exact ⟨slug1, rfl, h⟩
  | err =>
    rw [hc] at h
    exact Option.noConfusion h
  | diverge =>
    rw [hc] at h
    exact Option.noConfusion h

lemma moveOp_shape {db : LocDB} {locId : Nat} {newParent : Option Nat}
    {newName newSlug : String} {db' : LocDB}
    (h : moveOrRenameOp db locId newParent newName newSlug = some db') :
    ∃ old slug1, lookupLoc db locId = some old ∧
      cleanLoc db (some locId) newParent newName newSlug = CleanResult.ok slug1 ∧
      saveLoc db { old with name := newName, slug := slug1, parent := newParent } =
        some db' := by
  unfold moveOrRenameOp at h
  cases hold : lookupLoc db locId with
  | none =>
    rw [hold] at h
    exact Option.noConfusion h
  | some old =>
    rw [hold] at h
    dsimp only [] at h
    cases hc : cleanLoc db (some locId) newParent newName newSlug with
    | ok slug1 =>
      rw [hc] at h
      dsimp only [] at h
      by_cases hu : db.any (fun l => l.id != locId && l.parent == newParent &&
          (l.name == newName || l.slug == slug1))
      · rw [if_pos hu] at h
        exact Option.noConfusion h
      · rw [if_neg hu] at h
        exact ⟨old, slug1, rfl, rfl, h⟩
    | err =>
      rw [hc] at h
      exact Option.noConfusion h
    | diverge =>
      rw [hc] at h
      exact Option.noConfusion h

lemma saveLoc_cases {db : LocDB} {loc : Location} {db' : LocDB}
    (h : saveLoc db loc = some db') :
    ∃ newPath, computePathCache (upsertLoc db loc) loc.parent loc.slug = some newPath ∧
      ((newPath = loc.path_cache ∧
          (lookupLoc db loc.id).bind (fun l => l.parent) = loc.parent ∧
          (lookupLoc db loc.id).map (fun l => l.slug) = some loc.slug ∧
          db' = upsertLoc db loc) ∨
        db' = rebuildDescendantPaths
          (if newPath ≠ loc.path_cache
           then updatePathCacheById (upsertLoc db loc) loc.id newPath
           else upsertLoc db loc).length
          (if newPath ≠ loc.path_cache
           then updatePathCacheById (upsertLoc db loc) loc.id newPath
           else upsertLoc db loc) loc.id newPath) := by
  simp only [saveLoc] at h
  cases hcomp : computePathCache (upsertLoc db loc) loc.parent loc.slug with
  | none => rw [hcomp] at h; exact Option.noConfusion h
  | some newPath =>
    rw [hcomp] at h
    dsimp only [] at h
    by_cases hpc : newPath ≠ loc.path_cache
    · rw [if_pos (Or.inl hpc)] at h
      injection h with h
      exact ⟨newPath, rfl, Or.inr h.symm⟩
    · by_cases hrest : (lookupLoc db loc.id).bind (fun l => l.parent) ≠ loc.parent ∨
          (lookupLoc db loc.id).map (fun l => l.slug) ≠ some loc.slug
      · rw [if_pos (Or.elim hrest (fun hr => Or.inr (Or.inl hr))
          (fun hr => Or.inr (Or.inr hr)))] at h
        injection h with h
        exact ⟨newPath, rfl, Or.inr h.symm⟩
      · push_neg at hpc hrest
        rw [if_neg (by
          intro hcontra
          rcases hcontra with hc | hc | hc
          · exact hc hpc
          · exact hc hrest.1
          · exact hc hrest.2), if_neg (fun hc => hc hpc)] at h
        injection h with h
        exact ⟨newPath, rfl, Or.inl ⟨hpc, hrest.1, hrest.2, h.symm⟩⟩

lemma computePathCache_child {db1 : LocDB} {p : Nat} {pl : Location} (slug : String)
    (hf : lookupLoc db1 p = some pl) (hne : pl.path_cache ≠ "") :
    computePathCache db1 (some p) slug = some (pl.path_cache ++ "/" ++ slug) := by
  unfold computePathCache
  dsimp only []
  rw [hf]
  simp [hne]

lemma reflTransGen_transfer_to_target {E E' : Nat → Nat → Prop} {m : Nat}
    (h : ∀ c p, c ≠ m → E c p → E' c p) :
    ∀ a, Relation.ReflTransGen E a m → Relation.ReflTransGen E' a m := by
  intro a ham
  induction ham using Relation.ReflTransGen.head_induction_on with
  | refl => exact Relation.ReflTransGen.refl
  | @head x c hstep _ ih =>
    by_cases hx : x = m
    · subst hx
      exact Relation.ReflTransGen.refl
    · exact Relation.ReflTransGen.head (h x c hx hstep) ih

lemma reflTransGen_eq_of_no_edge_into {r : Nat → Nat → Prop} {t : Nat}
    (hno : ∀ x, ¬ r x t) : ∀ s, Relation.ReflTransGen r s t → s = t := by
  intro s hst
  induction hst using Relation.ReflTransGen.head_induction_on with
  | refl => rfl
  | @head x c hstep _ ih =>
    rw [ih] at hstep
    exact absurd hstep (hno x)

lemma ancestorChainAux_agree (db da : LocDB) (R : Nat → Prop)
    (hagree : ∀ j, R j → lookupLoc da j = lookupLoc db j)
    (hR : ∀ j, R j → ∀ l, lookupLoc db j = some l → ∀ p, l.parent = some p → R p) :
    ∀ (fuel : Nat) (cur : Option Location) (acc : List Location),
      (∀ l, cur = some l → R l.id ∧ lookupLoc db l.id = some l) →
      ancestorChainAux da fuel cur acc = ancestorChainAux db fuel cur acc := by
  intro fuel
  induction fuel with
  | zero =>
    intro cur acc _
    cases cur with
    | none => rw [ancestorChainAux_none, ancestorChainAux_none]
    | some l => rfl
  | succ n ih =>
    intro cur acc hcur
    cases cur with
    | none => rw [ancestorChainAux_none, ancestorChainAux_none]
    | some l =>
      obtain ⟨hRl, hlook⟩ := hcur l rfl
      cases hp : l.parent with
      | none =>
        rw [ancestorChainAux_step_none da n l acc hp, ancestorChainAux_step_none db n l acc hp]
      | some pid =>
        have hRp : R pid := hR l.id hRl l hlook pid hp
        have heq := hagree pid hRp
        cases hfp : lookupLoc db pid with
        | none =>
          have hfa : lookupLoc da pid = none := by rw [heq, hfp]
          show ancestorChainAux da (n + 1) (some l) acc = _
          simp [ancestorChainAux, hp, hfa, hfp]
        | some p' =>
          have hfa : lookupLoc da pid = some p' := by rw [heq, hfp]
          rw [ancestorChainAux_step_some da n l acc hp hfa,
            ancestorChainAux_step_some db n l acc hp hfp]
          refine ih (some p') (l :: acc) ?_
          intro l' hl'
          injection hl' with hl'
          subst hl'
          have hpid : p'.id = pid := (mem_of_lookupLoc hfp).2
          exact ⟨hpid ▸ hRp, hpid ▸ hfp⟩

lemma chainSlugPath_agree {db da : LocDB} (hinv : TreeInv db)
    (hlen : db.length ≤ da.length) {l : Location} (hl : l ∈ db)
    (hagree : ∀ j, Relation.ReflTransGen (ParentEdge db) l.id j →
      lookupLoc da j = lookupLoc db j) :
    chainSlugPath da l = chainSlugPath db l := by
  obtain ⟨ch, hch, -, -⟩ := ancestorChain_terminates hinv hl
  unfold ancestorChain at hch
  have hmono := ancestorChainAux_fuel_mono db (db.length + 1) (da.length + 1)
    (some l) [] ch (by omega) hch
  have hagreeaux := ancestorChainAux_agree db da
    (fun j => Relation.ReflTransGen (ParentEdge db) l.id j) hagree
    (by
      intro j hRj lj hlj p hp
      refine Relation.ReflTransGen.tail hRj ?_
      show parentOf db j = some p
      unfold parentOf
      rw [hlj]
      simpa using hp)
    (da.length + 1) (some l) []
    (by
      intro l' hl'
      injection hl' with hl'
      subst hl'
      exact ⟨Relation.ReflTransGen.refl, lookupLoc_of_mem hinv.nodup hl⟩)
  unfold chainSlugPath ancestorChain
  rw [hagreeaux, hmono, hch]

open scoped Classical in
lemma saveLoc_inv {db : LocDB} (hinv : Inv db) {loc : Location} {db' : LocDB}
    (hid0 : loc.id ≠ 0) (hslug : loc.slug ≠ "")
    (hparent_ex : ∀ p, loc.parent = some p → ∃ l ∈ db, l.id = p)
    (hguard : ∀ p, loc.parent = some p →
      ¬ Relation.ReflTransGen (ParentEdge db) p loc.id)
    (hsave : saveLoc db loc = some db') : Inv db' := by
  obtain ⟨newPath, hcomp, hbranch⟩ := saveLoc_cases hsave
  have hnodup := hinv.tree.nodup
  -- characterize the computed path
  have hNP : (loc.parent = none ∧ newPath = loc.slug) ∨
      (∃ p pl, loc.parent = some p ∧ p ≠ loc.id ∧ lookupLoc db p = some pl ∧ pl ∈ db ∧
        pl.path_cache ≠ "" ∧ newPath = pl.path_cache ++ "/" ++ loc.slug) := by
    cases hpar : loc.parent with
    | none =>
      rw [hpar] at hcomp
      injection hcomp with hcomp
      exact Or.inl ⟨rfl, hcomp.symm⟩
    | some p =>
      have hpm : p ≠ loc.id := by
        intro he
        exact hguard p hpar (he ▸ Relation.ReflTransGen.refl)
      obtain ⟨pl, hpl, hplmem, hplid⟩ := lookupLoc_of_exists (hparent_ex p hpar)
      have hplpath : chainSlugPath db pl = some pl.path_cache := hinv.pathOk pl hplmem
      have hplne : pl.path_cache ≠ "" := chainSlugPath_ne_empty hinv.tree hplmem hplpath
      have hlook1 : lookupLoc (upsertLoc db loc) p = some pl := by
        rw [lookup_upsert_other db loc p hpm]
        exact hpl
      rw [hpar, computePathCache_child loc.slug hlook1 hplne] at hcomp
      injection hcomp with hcomp
      exact Or.inr ⟨p, pl, rfl, hpm, hpl, hplmem, hplne, hcomp.symm⟩
  rcases hbranch with ⟨hpeq, hpareq, hslugeq, rfl⟩ | rfl
  · -- no-rebuild branch: parent and slug unchanged, path already correct
    cases hold : lookupLoc db loc.id with
    | none =>
      rw [hold] at hslugeq
      exact Option.noConfusion hslugeq
    | some old =>
      rw [hold] at hpareq hslugeq
      simp only [Option.some_bind, Option.map_some', Option.some.injEq] at hpareq hslugeq
      have holdmem : old ∈ db := (mem_of_lookupLoc hold).1
      have holdid : old.id = loc.id := (mem_of_lookupLoc hold).2
      have hkey : locKey loc = locKey old := by
        unfold locKey
        rw [← holdid, hslugeq, hpareq]
      have hsame : sameStruct db (upsertLoc db loc) := by
        rw [upsertLoc_exists_eq db loc ⟨old, holdmem, holdid⟩]
        unfold sameStruct
        rw [List.map_map]
        refine List.map_congr_left fun x hx => ?_
        by_cases hxm : x.id = loc.id
        · have hxold : x = old := by
            have h1 := lookupLoc_of_mem hnodup hx
            rw [hxm, ← holdid] at h1
            have h2 := lookupLoc_of_mem hnodup holdmem
            rw [h1] at h2
            injection h2
          subst hxold
          simp only [Function.comp_apply, if_pos hxm]
          exact hkey.symm
        · simp [Function.comp_apply, hxm]
      -- cache of the new row equals the old cache
      have hcache : loc.path_cache = old.path_cache := by
        rw [← hpeq]
        rcases hNP with ⟨hpar, hnp⟩ | ⟨p, pl, hpar, hpm, hpl, hplmem, hplne, hnp⟩
        · have hroot : old.parent = none := by rw [hpareq]; exact hpar
          have := hinv.pathOk old holdmem
          rw [chainSlugPath_root hroot] at this
          injection this with this
          rw [hnp, ← hslugeq, this]
        · have hpold : old.parent = some p := by rw [hpareq]; exact hpar
          have hplpath : chainSlugPath db pl = some pl.path_cache := hinv.pathOk pl hplmem
          have := hinv.pathOk old holdmem
          rw [chainSlugPath_parent hinv.tree holdmem hpold hpl hplpath] at this
          injection this with this
          rw [hnp, ← hslugeq, this]
      -- lookups of the new table
      have hlook' : ∀ j, lookupLoc (upsertLoc db loc) j =
          if j = loc.id then some loc else lookupLoc db j := by
        intro j
        by_cases hj : j = loc.id
        · rw [if_pos hj, hj, lookup_upsert_self]
        · rw [if_neg hj, lookup_upsert_other db loc j hj]
      have htree' : TreeInv (upsertLoc db loc) := treeInv_of_sameStruct hsame hinv.tree
      refine ⟨htree', ?_⟩
      intro l' hl'
      have hlk : lookupLoc (upsertLoc db loc) l'.id = some l' :=
        lookupLoc_of_mem htree'.nodup hl'
      have hspec : specPathOfId (upsertLoc db loc) l'.id = specPathOfId db l'.id :=
        (specPathOfId_of_sameStruct hsame l'.id).symm
      have hgoal : specPathOfId (upsertLoc db loc) l'.id = some l'.path_cache := by
        rw [hspec]
        by_cases hj : l'.id = loc.id
        · have : l' = loc := by
            rw [hlook' l'.id, if_pos hj] at hlk
            injection hlk.symm
          subst this
          unfold specPathOfId
          rw [hj, ← holdid, lookupLoc_of_mem hnodup holdmem]
          simp only [Option.some_bind]
          rw [hinv.pathOk old holdmem, hcache]
        · rw [hlook' l'.id, if_neg hj] at hlk
          unfold specPathOfId
          rw [hlk]
          simp only [Option.some_bind]
          exact hinv.pathOk l' ((mem_of_lookupLoc hlk).1)
      unfold specPathOfId at hgoal
      rw [hlk] at hgoal
      simpa using hgoal
  · -- rebuild branch
    set db1 := upsertLoc db loc with hdb1
    set db2 := if newPath ≠ loc.path_cache
      then updatePathCacheById db1 loc.id newPath else db1 with hdb2
    set mrow : Location := { loc with path_cache := newPath } with hmrow
    have hlookm1 : lookupLoc db1 loc.id = some loc := lookup_upsert_self db loc
    have hlookm2 : lookupLoc db2 loc.id = some mrow := by
      rw [hdb2]
      by_cases hpc : newPath ≠ loc.path_cache
      · rw [if_pos hpc, lookup_updatePathCacheById, hlookm1]
        simp [hmrow]
      · push_neg at hpc
        rw [if_neg (fun h => h hpc), hlookm1, hmrow]
        rw [show ({ loc with path_cache := newPath } : Location) = loc from by rw [hpc]]
    have hother2 : ∀ j, j ≠ loc.id → lookupLoc db2 j = lookupLoc db j := by
      intro j hj
      rw [hdb2]
      by_cases hpc : newPath ≠ loc.path_cache
      · rw [if_pos hpc, lookup_updatePathCacheById_other hj,
          lookup_upsert_other db loc j hj]
      · rw [if_neg hpc, lookup_upsert_other db loc j hj]
    have hids2 : db2.map (fun l => l.id) = db1.map (fun l => l.id) := by
      rw [hdb2]
      by_cases hpc : newPath ≠ loc.path_cache
      · rw [if_pos hpc]
        exact ids_updatePathCacheById db1 loc.id newPath
      · rw [if_neg hpc]
    have hnodup2 : (db2.map (fun l => l.id)).Nodup := by
      rw [hids2]
      by_cases hex : ∃ l ∈ db, l.id = loc.id
      · rw [ids_upsert_exists db loc hex]
        exact hnodup
      · rw [ids_upsert_not_exists db loc hex]
        rw [List.nodup_append]
        refine ⟨hnodup, List.nodup_singleton _, ?_⟩
        intro x hx hx1
        have hx' : x = loc.id := by simpa using hx1
        subst hx'
        obtain ⟨lx, hlx, hlxid⟩ := List.mem_map.mp hx
        exact hex ⟨lx, hlx, hlxid⟩
    have hlen2 : db.length ≤ db2.length := by
      have h1 : db2.length = (db2.map (fun l => l.id)).length := (List.length_map _ _).symm
      have h2 : db1.length = (db1.map (fun l => l.id)).length := (List.length_map _ _).symm
      rw [h1, hids2, ← h2]
      by_cases hex : ∃ l ∈ db, l.id = loc.id
      · rw [hdb1, upsertLoc_exists_eq db loc hex]
        simp
      · rw [hdb1, upsertLoc_not_exists_eq db loc hex]
        simp
    have hrow2 : ∀ l2 ∈ db2, l2 = mrow ∨ (l2 ∈ db ∧ l2.id ≠ loc.id) := by
      intro l2 hl2
      have hlk := lookupLoc_of_mem hnodup2 hl2
      by_cases hj : l2.id = loc.id
      · rw [hj, hlookm2] at hlk
        exact Or.inl (by injection hlk.symm)
      · rw [hother2 l2.id hj] at hlk
        exact Or.inr ⟨(mem_of_lookupLoc hlk).1, hj⟩
    have hmrowmem : mrow ∈ db2 := (mem_of_lookupLoc hlookm2).1
    have hpm2 : parentOf db2 loc.id = loc.parent := by
      unfold parentOf
      rw [hlookm2]
      rfl
    have hpj2 : ∀ j, j ≠ loc.id → parentOf db2 j = parentOf db j := by
      intro j hj
      unfold parentOf
      rw [hother2 j hj]
    have htree2 : TreeInv db2 := by
      refine ⟨hnodup2, ?_, ?_, ?_, ?_⟩
      · intro l2 hl2
        rcases hrow2 l2 hl2 with rfl | ⟨hl2db, -⟩
        · exact hid0
        · exact hinv.tree.pos l2 hl2db
      · intro l2 hl2 p hp
        rcases hrow2 l2 hl2 with rfl | ⟨hl2db, -⟩
        · have hp' : loc.parent = some p := hp
          have hpm : p ≠ loc.id := by
            intro he
            exact hguard p hp' (he ▸ Relation.ReflTransGen.refl)
          obtain ⟨pl, hpl, hplmem, hplid⟩ := lookupLoc_of_exists (hparent_ex p hp')
          have : lookupLoc db2 p = some pl := by rw [hother2 p hpm]; exact hpl
          exact ⟨pl, (mem_of_lookupLoc this).1, hplid⟩
        · obtain ⟨x, hx, hxid⟩ := hinv.tree.parentsExist l2 hl2db p hp
          by_cases hpm : p = loc.id
          · exact ⟨mrow, hmrowmem, by rw [hmrow]; exact hpm.symm ▸ rfl⟩
          · obtain ⟨x', hx', hx'mem, hx'id⟩ := lookupLoc_of_exists ⟨x, hx, hxid⟩
            have hl2p : lookupLoc db2 p = some x' := by
              rw [hother2 p hpm]
              exact hx'
            exact ⟨x', (mem_of_lookupLoc hl2p).1, hx'id⟩
      · cases hpar : loc.parent with
        | none =>
          refine acyclic_of_edge_subset ?_ hinv.tree.acyclic
          intro c p hcp
          have hcm : c ≠ loc.id := by
            intro he
            rw [he] at hcp
            unfold ParentEdge at hcp
            rw [hpm2, hpar] at hcp
            exact Option.noConfusion hcp
          unfold ParentEdge at hcp ⊢
          rw [hpj2 c hcm] at hcp
          exact hcp
        | some qp =>
          refine acyclic_reparent ?_ hinv.tree.acyclic (hguard qp hpar)
          intro c p hcp
          by_cases hcm : c = loc.id
          · subst hcm
            unfold ParentEdge at hcp
            rw [hpm2, hpar] at hcp
            injection hcp with hcp
            exact Or.inr ⟨rfl, hcp.symm⟩
          · unfold ParentEdge at hcp
            rw [hpj2 c hcm] at hcp
            exact Or.inl ⟨hcm, hcp⟩
      · intro l2 hl2
        rcases hrow2 l2 hl2 with rfl | ⟨hl2db, -⟩
        · exact hslug
        · exact hinv.tree.slugNe l2 hl2db
    -- the freshly written row has the correct chain path in db2
    have hmrowspec : chainSlugPath db2 mrow = some newPath := by
      rcases hNP with ⟨hpar, hnp⟩ | ⟨p, pl, hpar, hpm, hpl, hplmem, hplne, hnp⟩
      · have : mrow.parent = none := hpar
        rw [chainSlugPath_root this, hnp]
      · have hmp : mrow.parent = some p := hpar
        have hlkp : lookupLoc db2 p = some pl := by
          rw [hother2 p hpm]
          exact hpl
        have hplchain : chainSlugPath db2 pl = chainSlugPath db pl := by
          refine chainSlugPath_agree hinv.tree hlen2 hplmem ?_
          intro j hj
          have hjm : j ≠ loc.id := by
            intro he
            have hplid : pl.id = p := (mem_of_lookupLoc hpl).2
            rw [hplid, he] at hj
            exact hguard p hpar hj
          exact hother2 j hjm
        have hplpath : chainSlugPath db2 pl = some pl.path_cache := by
          rw [hplchain]
          exact hinv.pathOk pl hplmem
        rw [chainSlugPath_parent htree2 hmrowmem hmp hlkp hplpath, hnp]
    have hself2 : ∃ lself, lookupLoc db2 loc.id = some lself ∧
        chainSlugPath db2 lself = some newPath := ⟨mrow, hlookm2, hmrowspec⟩
    have hfuel2 : ((db2.map (fun l => l.id)).toFinset.filter
        (fun i => IsStrictDescendant db2 i loc.id)).card < db2.length := by
      have hss : ((db2.map (fun l => l.id)).toFinset.filter
          (fun i => IsStrictDescendant db2 i loc.id)) ⊂
          (db2.map (fun l => l.id)).toFinset := by
        refine Finset.ssubset_iff_of_subset (Finset.filter_subset _ _) |>.mpr ?_
        refine ⟨loc.id, ?_, ?_⟩
        · refine List.mem_toFinset.mpr ?_
          have : mrow.id = loc.id := rfl
          rw [← this]
          exact List.mem_map_of_mem _ hmrowmem
        · intro hmem
          exact htree2.acyclic loc.id (Finset.mem_filter.mp hmem).2
      have h1 := Finset.card_lt_card hss
      have h2 : ((db2.map (fun l => l.id)).toFinset).card ≤ db2.length := by
        calc ((db2.map (fun l => l.id)).toFinset).card ≤
            (db2.map (fun l => l.id)).length := (db2.map (fun l => l.id)).toFinset_card_le
          _ = db2.length := List.length_map _ _
      omega
    obtain ⟨hA, hB⟩ := rebuild_correct db2.length db2 loc.id newPath htree2 hfuel2 hself2
    have hsame' : sameStruct db2 (rebuildDescendantPaths db2.length db2 loc.id newPath) :=
      sameStruct_rebuild db2.length db2 loc.id newPath
    have htree' : TreeInv (rebuildDescendantPaths db2.length db2 loc.id newPath) :=
      treeInv_of_sameStruct hsame' htree2
    refine ⟨htree', ?_⟩
    intro l' hl'
    have hlk : lookupLoc (rebuildDescendantPaths db2.length db2 loc.id newPath) l'.id =
        some l' := lookupLoc_of_mem htree'.nodup hl'
    have hspec' : specPathOfId (rebuildDescendantPaths db2.length db2 loc.id newPath) l'.id =
        specPathOfId db2 l'.id := (specPathOfId_of_sameStruct hsame' l'.id).symm
    have hgoal : specPathOfId db2 l'.id = some l'.path_cache := by
      by_cases hdesc : IsStrictDescendant db2 l'.id loc.id
      · have := hA l'.id hdesc
        rw [hlk] at this
        simpa using this.symm
      · have hlk2 : lookupLoc db2 l'.id = some l' := by
          rw [← hB l'.id hdesc]
          exact hlk
        by_cases hj : l'.id = loc.id
        · have : l' = mrow := by
            rw [hj, hlookm2] at hlk2
            injection hlk2.symm
          subst this
          unfold specPathOfId
          rw [hj, hlookm2]
          simp only [Option.some_bind]
          rw [hmrowspec]
        · have hlkdb : lookupLoc db l'.id = some l' := by
            rw [← hother2 l'.id hj]
            exact hlk2
          have hl'db : l' ∈ db := (mem_of_lookupLoc hlkdb).1
          have hchain : chainSlugPath db2 l' = chainSlugPath db l' := by
            refine chainSlugPath_agree hinv.tree hlen2 hl'db ?_
            intro j hjr
            have hjm : j ≠ loc.id := by
              intro he
              subst he
              have htrans : Relation.ReflTransGen (ParentEdge db2) l'.id loc.id :=
                reflTransGen_transfer_to_target
                  (fun c p hc hcp => by
                    unfold ParentEdge at hcp ⊢
                    rw [hpj2 c hc]
                    exact hcp) l'.id hjr
              rcases Relation.reflTransGen_iff_eq_or_transGen.mp htrans with heq | htg
              · exact hj heq.symm
              · exact hdesc htg
            exact hother2 j hjm
          unfold specPathOfId
          rw [hlk2]
          simp only [Option.some_bind]
          rw [hchain]
          exact hinv.pathOk l' hl'db
    have hfinal : specPathOfId (rebuildDescendantPaths db2.length db2 loc.id newPath) l'.id =
        some l'.path_cache := by
      rw [hspec']
      exact hgoal
    unfold specPathOfId at hfinal
    rw [hlk] at hfinal
    simpa using hfinal

lemma inv_empty : Inv [] := by
  refine ⟨⟨by simp, ?_, ?_, ?_, ?_⟩, ?_⟩
  · intro l hl
    exact absurd hl (List.not_mem_nil l)
  · intro l hl
    exact absurd hl (List.not_mem_nil l)
  · exact acyclicDB_of_no_parent [] (fun l hl => absurd hl (List.not_mem_nil l))
  · intro l hl
    exact absurd hl (List.not_mem_nil l)
  · intro l hl
    exact absurd hl (List.not_mem_nil l)

lemma reach_inv {db : LocDB} (h : Reach db) : Inv db := by
  induction h with
  | empty => exact inv_empty
  | @create db0 db' newId parentId name slug hre hpos hfresh hpar hop ih =>
    obtain ⟨slug1, hclean, hsave⟩ := createOp_shape hop
    obtain ⟨-, hslugne, -⟩ := cleanLoc_ok hclean
    refine saveLoc_inv ih hpos hslugne hpar ?_ hsave
    intro p hp hrt
    have hnoedge : ∀ x, ¬ ParentEdge db0 x newId := by
      intro x hx
      unfold ParentEdge parentOf at hx
      cases hfx : lookupLoc db0 x with
      | none => rw [hfx] at hx; exact Option.noConfusion hx
      | some lx =>
        rw [hfx] at hx
        simp only [Option.some_bind] at hx
        obtain ⟨l2, hl2, hl2id⟩ := ih.tree.parentsExist lx (mem_of_lookupLoc hfx).1 newId hx
        exact hfresh l2 hl2 hl2id
    have hpn := reflTransGen_eq_of_no_edge_into hnoedge p hrt
    obtain ⟨lp, hlp, hlpid⟩ := hpar p hp
    exact hfresh lp hlp (by rw [hlpid, hpn])
  | @move db0 db' locId newParent newName newSlug hre hpar hop ih =>
    obtain ⟨old, slug1, hold, hclean, hsave⟩ := moveOp_shape hop
    obtain ⟨-, hslugne, hwalk⟩ := cleanLoc_ok hclean
    have holdmem := (mem_of_lookupLoc hold).1
    have holdid := (mem_of_lookupLoc hold).2
    have hm0 : locId ≠ 0 := fun h0 => ih.tree.pos old holdmem (holdid.trans h0)
    refine saveLoc_inv ih ?_ hslugne hpar ?_ hsave
    · show old.id ≠ 0
      rw [holdid]
      exact hm0
    · intro p hp hrt
      have hcard : ((db0.map (fun l => l.id)).toFinset \ (∅ : Finset Nat)).card <
          db0.length + 1 := by
        rw [Finset.sdiff_empty]
        have h1 := (db0.map (fun l => l.id)).toFinset_card_le
        have h2 : (db0.map (fun l => l.id)).length = db0.length := List.length_map _ _
        omega
      have hspec := cleanWalk_spec db0 ih.tree hm0 (db0.length + 1) newParent ∅
        hpar (fun s hs => absurd hs (Finset.not_mem_empty s)) hcard
      have hrt' : Relation.ReflTransGen (ParentEdge db0) p locId := by
        rw [← holdid]
        exact hrt
      have hcyc := hspec.mpr ⟨p, hp, hrt'⟩
      rw [hwalk] at hcyc
      exact WalkOutcome.noConfusion hcyc

/-- C1: Path-cache invariant — in every table state reachable from the
empty table by accepted `create` / `move_or_rename` operations, every
row's `path_cache` equals the slash-join of the slugs along its
`ancestor_chain`, root first; the cascade in `Location.save`
re-establishes this for the saved row and all of its descendants after
each operation. -/
theorem reachable_path_cache_correct (db : LocDB) (h : Reach db) :
    ∀ l ∈ db, ∃ ch, ancestorChain db l = some ch ∧
      l.path_cache = String.intercalate "/" (ch.map (fun x => x.slug)) := by
  have hinv := reach_inv h
  intro l hl
  have hp := hinv.pathOk l hl
  unfold chainSlugPath at hp
  cases hch : ancestorChain db l with
  | none => rw [hch] at hp; exact Option.noConfusion hp
  | some ch =>
    rw [hch] at hp
    simp only [Option.map_some', Option.some.injEq] at hp
    exact ⟨ch, rfl, hp.symm⟩

/-- C2: Acyclicity and ancestor-walk termination — in every reachable
table state the stored parent relation has no cycle, and
`ancestor_chain` terminates from every row, visiting each node at most
once (the returned chain carries pairwise distinct primary keys). -/
theorem reachable_acyclic_chains (db : LocDB) (h : Reach db) :
    AcyclicDB db ∧ ∀ l ∈ db, ∃ ch, ancestorChain db l = some ch ∧
      (ch.map (fun x => x.id)).Nodup := by
  have hinv := reach_inv h
  refine ⟨hinv.tree.acyclic, ?_⟩
  intro l hl
  obtain ⟨ch, hch, hnd, -⟩ := ancestorChain_terminates hinv.tree hl
  exact ⟨ch, hch, hnd⟩

lemma cleanLoc_err_of_cycle {db : LocDB} (hinv : Inv db) {locId p : Nat}
    (hmem : ∃ l ∈ db, l.id = locId) (hpmem : ∃ l ∈ db, l.id = p)
    (hcyc : p = locId ∨ IsStrictDescendant db p locId) (newName newSlug : String) :
    cleanLoc db (some locId) (some p) newName newSlug = CleanResult.err := by
  have hm0 : locId ≠ 0 := by
    obtain ⟨l, hl, hlid⟩ := hmem
    intro h0
    exact hinv.tree.pos l hl (hlid.trans h0)
  simp only [cleanLoc]
  by_cases h1 : (if newSlug = "" then slugify newName else newSlug) = ""
  · rw [if_pos h1]
  · rw [if_neg h1]
    by_cases h2 : (some p : Option Nat).getD 0 ≠ 0 ∧ (some p : Option Nat) = some locId
    · rw [if_pos h2]
    · rw [if_neg h2]
      have hrt : Relation.ReflTransGen (ParentEdge db) p locId := by
        rcases hcyc with heq | hd
        · refine absurd ⟨?_, ?_⟩ h2
          · simpa [heq] using hm0
          · rw [heq]
        · exact Relation.TransGen.to_reflTransGen hd
      have hcard : ((db.map (fun l => l.id)).toFinset \ (∅ : Finset Nat)).card <
          db.length + 1 := by
        rw [Finset.sdiff_empty]
        have ha := (db.map (fun l => l.id)).toFinset_card_le
        have hb : (db.map (fun l => l.id)).length = db.length := List.length_map _ _
        omega
      have hspec := cleanWalk_spec db hinv.tree hm0 (db.length + 1) (some p) ∅
        (by
          intro s hs
          injection hs with hs
          exact hs ▸ hpmem)
        (fun s hs => absurd hs (Finset.not_mem_empty s)) hcard
      rw [hspec.mpr ⟨p, rfl, hrt⟩]

/-- C3: Cycle guard — on every reachable table state, when the proposed
new parent equals the location itself or is one of its strict
descendants, `Location.clean` raises a `ValidationError` (the walk up
the proposed parent chain encounters the location), and the whole
`move_or_rename` call is rejected. -/
theorem move_cycle_guard (db : LocDB) (h : Reach db) (locId p : Nat)
    (hmem : ∃ l ∈ db, l.id = locId) (hpmem : ∃ l ∈ db, l.id = p)
    (hcyc : p = locId ∨ IsStrictDescendant db p locId) (newName newSlug : String) :
    cleanLoc db (some locId) (some p) newName newSlug = CleanResult.err ∧
    moveOrRenameOp db locId (some p) newName newSlug = none := by
  have hinv := reach_inv h
  have herr := cleanLoc_err_of_cycle hinv hmem hpmem hcyc newName newSlug
  refine ⟨herr, ?_⟩
  unfold moveOrRenameOp
  obtain ⟨old, hold, holdmem, holdid⟩ := lookupLoc_of_exists hmem
  rw [hold]
  dsimp only []
  rw [herr]

/-- Concrete instantiation of `reachable_path_cache_correct` on the
two-location forest built by creating "HQ" and "Floor 2" under it. -/
theorem reachable_path_cache_correct_witness :
    Reach [Location.mk 1 "HQ" "hq" none "hq" [],
      Location.mk 2 "Floor 2" "floor-2" (some 1) "hq/floor-2" []] ∧
    ∀ l ∈ [Location.mk 1 "HQ" "hq" none "hq" [],
        Location.mk 2 "Floor 2" "floor-2" (some 1) "hq/floor-2" []],
      ∃ ch, ancestorChain [Location.mk 1 "HQ" "hq" none "hq" [],
          Location.mk 2 "Floor 2" "floor-2" (some 1) "hq/floor-2" []] l = some ch ∧
        l.path_cache = String.intercalate "/" (ch.map (fun x => x.slug)) := by
  have hstep1 : createOp [] 1 none "HQ" "hq" =
      some [Location.mk 1 "HQ" "hq" none "hq" []] := by decide
  have h1 : Reach [Location.mk 1 "HQ" "hq" none "hq" []] :=
    Reach.create Reach.empty (by decide) (fun l hl => absurd hl (List.not_mem_nil l))
      (fun p hp => Option.noConfusion hp) hstep1
  have hstep2 : createOp [Location.mk 1 "HQ" "hq" none "hq" []] 2 (some 1) "Floor 2"
      "floor-2" = some [Location.mk 1 "HQ" "hq" none "hq" [],
        Location.mk 2 "Floor 2" "floor-2" (some 1) "hq/floor-2" []] := by decide
  have h2 : Reach [Location.mk 1 "HQ" "hq" none "hq" [],
      Location.mk 2 "Floor 2" "floor-2" (some 1) "hq/floor-2" []] :=
    Reach.create h1 (by decide) (by decide)
      (by
        intro p hp
        injection hp with hp
        subst hp
        decide) hstep2
  exact ⟨h2, reachable_path_cache_correct _ h2⟩

/-- Concrete instantiation of `reachable_acyclic_chains` on the same
two-location forest. -/
theorem reachable_acyclic_chains_witness :
    Reach [Location.mk 1 "HQ" "hq" none "hq" [],
      Location.mk 2 "Floor 2" "floor-2" (some 1) "hq/floor-2" []] ∧
    (AcyclicDB [Location.mk 1 "HQ" "hq" none "hq" [],
        Location.mk 2 "Floor 2" "floor-2" (some 1) "hq/floor-2" []] ∧
      ∀ l ∈ [Location.mk 1 "HQ" "hq" none "hq" [],
          Location.mk 2 "Floor 2" "floor-2" (some 1) "hq/floor-2" []],
        ∃ ch, ancestorChain [Location.mk 1 "HQ" "hq" none "hq" [],
            Location.mk 2 "Floor 2" "floor-2" (some 1) "hq/floor-2" []] l = some ch ∧
          (ch.map (fun x => x.id)).Nodup) := by
  have hstep1 : createOp [] 1 none "HQ" "hq" =
      some [Location.mk 1 "HQ" "hq" none "hq" []] := by decide
  have h1 : Reach [Location.mk 1 "HQ" "hq" none "hq" []] :=
    Reach.create Reach.empty (by decide) (fun l hl => absurd hl (List.not_mem_nil l))
      (fun p hp => Option.noConfusion hp) hstep1
  have hstep2 : createOp [Location.mk 1 "HQ" "hq" none "hq" []] 2 (some 1) "Floor 2"
      "floor-2" = some [Location.mk 1 "HQ" "hq" none "hq" [],
        Location.mk 2 "Floor 2" "floor-2" (some 1) "hq/floor-2" []] := by decide
  have h2 : Reach [Location.mk 1 "HQ" "hq" none "hq" [],
      Location.mk 2 "Floor 2" "floor-2" (some 1) "hq/floor-2" []] :=
    Reach.create h1 (by decide) (by decide)
      (by
        intro p hp
        injection hp with hp
        subst hp
        decide) hstep2
  exact ⟨h2, reachable_acyclic_chains _ h2⟩

/-- Concrete instantiation of `move_cycle_guard`: reparenting "HQ" under
its own descendant "Floor 2" raises in `clean` and the whole
`move_or_rename` is rejected. -/
theorem move_cycle_guard_witness :
    Reach [Location.mk 1 "HQ" "hq" none "hq" [],
      Location.mk 2 "Floor 2" "floor-2" (some 1) "hq/floor-2" []] ∧
    (∃ l ∈ [Location.mk 1 "HQ" "hq" none "hq" [],
        Location.mk 2 "Floor 2" "floor-2" (some 1) "hq/floor-2" []], l.id = 1) ∧
    (∃ l ∈ [Location.mk 1 "HQ" "hq" none "hq" [],
        Location.mk 2 "Floor 2" "floor-2" (some 1) "hq/floor-2" []], l.id = 2) ∧
    (2 = 1 ∨ IsStrictDescendant [Location.mk 1 "HQ" "hq" none "hq" [],
        Location.mk 2 "Floor 2" "floor-2" (some 1) "hq/floor-2" []] 2 1) ∧
    (cleanLoc [Location.mk 1 "HQ" "hq" none "hq" [],
        Location.mk 2 "Floor 2" "floor-2" (some 1) "hq/floor-2" []]
        (some 1) (some 2) "HQ" "hq" = CleanResult.err ∧
      moveOrRenameOp [Location.mk 1 "HQ" "hq" none "hq" [],
        Location.mk 2 "Floor 2" "floor-2" (some 1) "hq/floor-2" []]
        1 (some 2) "HQ" "hq" = none) := by
  have hstep1 : createOp [] 1 none "HQ" "hq" =
      some [Location.mk 1 "HQ" "hq" none "hq" []] := by decide
  have h1 : Reach [Location.mk 1 "HQ" "hq" none "hq" []] :=
    Reach.create Reach.empty (by decide) (fun l hl => absurd hl (List.not_mem_nil l))
      (fun p hp => Option.noConfusion hp) hstep1
  have hstep2 : createOp [Location.mk 1 "HQ" "hq" none "hq" []] 2 (some 1) "Floor 2"
      "floor-2" = some [Location.mk 1 "HQ" "hq" none "hq" [],
        Location.mk 2 "Floor 2" "floor-2" (some 1) "hq/floor-2" []] := by decide
  have h2 : Reach [Location.mk 1 "HQ" "hq" none "hq" [],
      Location.mk 2 "Floor 2" "floor-2" (some 1) "hq/floor-2" []] :=
    Reach.create h1 (by decide) (by decide)
      (by
        intro p hp
        injection hp with hp
        subst hp
        decide) hstep2
  have hedge : ParentEdge [Location.mk 1 "HQ" "hq" none "hq" [],
      Location.mk 2 "Floor 2" "floor-2" (some 1) "hq/floor-2" []] 2 1 := rfl
  exact ⟨h2, by decide, by decide, Or.inr (Relation.TransGen.single hedge),
    move_cycle_guard _ h2 1 2 (by decide) (by decide)
      (Or.inr (Relation.TransGen.single hedge)) "HQ" "hq"⟩

end ITIN
